import Mathlib

/-
Verification of the block allocator in `Dynamic_Mem_Alloc.c`.

The allocator manages a single mmap'd region.  `heap_start` points 4 bytes
into the region (alignment padding), every header/footer is a 4-byte `int`
(`size_status`), and an end mark with `size_status == 1` terminates the
block list.

Shallow embedding used here:
  * A pointer is its byte offset from the mmap base, as an `Int`
    (`NULL` is offset `0`; the real base is page aligned, hence `% 8 = 0`).
  * Memory is `Int → Int`: the 4-byte word stored at each byte offset.
    Every memory access the allocator performs is at an offset that is a
    multiple of 4 (`heap_start` is offset 4; the code advances by
    `size_status & ~3`, a multiple of 4; `bfree` only accepts pointers
    that are multiples of 8), so distinct accessed offsets never overlap
    and modelling each offset as an independent word cell is faithful.
  * `size_status` values are the signed values of the C `int`s.  The C
    bit operations `| 1`, `| 2`, `& ~1`, `& ~2`, `& 3` and
    `>> 2 << 2` (equal to `& ~3` on two's complement) only touch the two
    lowest bits and are expressed arithmetically through `x % 2` and
    `x % 4` (`Int.emod`, which yields the low bits of the two's
    complement representation also for negative values).
  * The unbounded C `while` loops are given explicit fuel
    (`heapFuel`), sufficient for every well-formed heap because each
    block is at least 8 bytes.
-/

set_option maxHeartbeats 1600000

namespace DMA

/-- Size of the C `blockHeader` struct: one 4-byte `int` field (`sizeof(blockHeader)`). -/
def hdrSize : Int := 4

/-- The value returned by `getpagesize()` on the target system. -/
def pagesize : Int := 4096

/-- Status bits removed: `x >> 2 << 2`, equal to `x & ~3` on two's complement,
which arithmetically subtracts the low two bits `x % 4`. -/
def msk (x : Int) : Int := x - x % 4

/-- Bit 0 (allocated flag) set: `x | 1`. -/
def setA (x : Int) : Int := x - x % 2 + 1

/-- Bit 0 (allocated flag) cleared: `x & ~1`. -/
def clrA (x : Int) : Int := x - x % 2

/-- Bit 1 (previous-allocated flag) set: `x | 2`. -/
def setP (x : Int) : Int := x - x % 4 + 2 + x % 2

/-- Bit 1 (previous-allocated flag) cleared: `x & ~2`. -/
def clrP (x : Int) : Int := x - x % 4 + x % 2

/-- Low two status bits: `x & 3`. -/
def low2 (x : Int) : Int := x % 4

/-- State of the allocator after a successful `init_heap`:
the word memory of the mmap'd region and the global `alloc_size`
(which `init_heap` stores already decreased by 8 for the initial padding
and the end mark).  `heap_start` is byte offset 4. -/
structure Heap where
  mem : Int → Int
  allocSize : Int

/-- Load of the 4-byte word (`size_status`) at byte offset `off`. -/
def readW (mem : Int → Int) (off : Int) : Int := mem off

/-- Store of the 4-byte word (`size_status`) at byte offset `off`. -/
def writeW (mem : Int → Int) (off v : Int) : Int → Int :=
  fun x => if x = off then v else mem x

/-- Fuel bound for the heap-traversal loops: a well-formed heap of usable
size `allocSize` has at most `allocSize / 8` blocks (each block is at
least 8 bytes), so `allocSize / 8 + 1` loop iterations always reach the
end mark. -/
def heapFuel (h : Heap) : Nat := (h.allocSize / 8 + 1).toNat

/-- Block size computed by `balloc`:
`((size + sizeof(blockHeader) + 7) / 8) * 8` (C `int` division; the
operand is positive for every accepted request, so truncating and
flooring division agree). -/
def blockSizeOf (size : Int) : Int := (size + hdrSize + 7) / 8 * 8

/-- The tie-keeping test of the best-fit scan:
`bestFit == NULL || currentSize < (bestFit->size_status >> 2 << 2)`. -/
def betterB (mem : Int → Int) (curSize : Int) : Option Int → Bool
  | none => true
  | some b => decide (curSize < msk (readW mem b))

/-- The best-fit scan loop of `balloc` (lines 95-111 of the C source).
`cur` is the current block pointer, `best` the `bestFit` pointer.
Stops at the end mark (`size_status == 1`); a free block larger or equal
to `blockSize` replaces the incumbent only when strictly smaller than it,
and an exact size match breaks out of the loop immediately. -/
def ballocScan (mem : Int → Int) (blockSize : Int) :
    Nat → Int → Option Int → Option Int
  | 0, _, best => best
  | fuel+1, cur, best =>
    let v := readW mem cur
    if v = 1 then best
    else
      let curSize := msk v
      let takes : Bool := v % 2 == 0 && decide (blockSize ≤ curSize) &&
        betterB mem curSize best
      if takes then
        if curSize = blockSize then some cur
        else ballocScan mem blockSize fuel (cur + curSize) (some cur)
      else ballocScan mem blockSize fuel (cur + curSize) best

/-- `balloc`.  Returns the payload offset (`bestFit + 1`, i.e. header
offset + 4) and the new heap.  In the split branch the C code writes
`blockSize | (bestFit->size_status & 3) | 1` (here
`setA (blockSize + low2 v)`, since `blockSize` is a multiple of 8) and
`remainder | 2` (here `remainder + 2`, since `remainder` is a multiple
of 4); no free-block footer is written in either branch. -/
def balloc (h : Heap) (size : Int) : Option Int × Heap :=
  if size < 1 then (none, h)
  else
    let blockSize := blockSizeOf size
    match ballocScan h.mem blockSize (heapFuel h) 4 none with
    | none => (none, h)
    | some bf =>
      let bfv := readW h.mem bf
      let remainder := msk bfv - blockSize
      if 2 * hdrSize + 8 ≤ remainder then
        let mem1 := writeW h.mem bf (setA (blockSize + low2 bfv))
        let newB := bf + blockSize
        let mem2 := writeW mem1 newB (remainder + 2)
        let nxt := newB + remainder
        let mem3 := if readW mem2 nxt = 1 then mem2
                    else writeW mem2 nxt (setP (readW mem2 nxt))
        (some (bf + hdrSize), { h with mem := mem3 })
      else
        let mem1 := writeW h.mem bf (setA bfv)
        let nxt := bf + msk (readW mem1 bf)
        let mem2 := if readW mem1 nxt = 1 then mem1
                    else writeW mem1 nxt (setP (readW mem1 nxt))
        (some (bf + hdrSize), { h with mem := mem2 })

/-- `bfree`.  Returns `0` on success and `-1` on failure.
The validation is exactly the C one: non-null, multiple of 8, at least
`heap_start + 1` (byte offset 8) and strictly below
`heap_start + alloc_size` (byte offset `4 + allocSize`), and the word
directly before the pointer must have its allocated bit set.
No footer is written. -/
def bfree (h : Heap) (ptr : Int) : Int × Heap :=
  if ptr = 0 ∨ ptr % 8 ≠ 0 ∨ ptr < 4 + hdrSize ∨ 4 + h.allocSize ≤ ptr then
    (-1, h)
  else
    let blk := ptr - hdrSize
    let v := readW h.mem blk
    if v % 2 = 0 then (-1, h)
    else
      let mem1 := writeW h.mem blk (clrA v)
      let nxt := blk + msk (readW mem1 blk)
      let mem2 := if readW mem1 nxt = 1 then mem1
                  else writeW mem1 nxt (clrP (readW mem1 nxt))
      (0, { h with mem := mem2 })

/-- The inner loop of `coalesce` (lines 208-212): while the block after
`cur` is free and not the end mark, add its masked size into `cur`'s
header. -/
def coalInner (mem : Int → Int) : Nat → Int → (Int → Int)
  | 0, _ => mem
  | fuel+1, cur =>
    let nxt := cur + msk (readW mem cur)
    let nv := readW mem nxt
    if nv ≠ 1 ∧ nv % 2 = 0 then
      coalInner (writeW mem cur (readW mem cur + msk nv)) fuel cur
    else mem

/-- The outer loop of `coalesce` (lines 202-222).  At a free block it runs
the inner merge loop, then sets (`|= 2`) the previous-allocated bit of
the following block if that is not the end mark, and advances past the
merged block. -/
def coalOuter (mem : Int → Int) : Nat → Int → (Int → Int)
  | 0, _ => mem
  | fuel+1, cur =>
    let v := readW mem cur
    if v = 1 then mem
    else if v % 2 = 0 then
      let m2 := coalInner mem fuel cur
      let nxt := cur + msk (readW m2 cur)
      let m3 := if readW m2 nxt = 1 then m2
                else writeW m2 nxt (setP (readW m2 nxt))
      coalOuter m3 fuel (cur + msk (readW m3 cur))
    else coalOuter mem fuel (cur + msk v)

/-- `coalesce`.  Always returns status 0. -/
def coalesce (h : Heap) : Int × Heap :=
  (0, { h with mem := coalOuter h.mem (heapFuel h) 4 })

/-- `init_heap`.  Fails for a non-positive request.  On success the region
is zero (mmap of `/dev/zero`), `alloc_size` is the page-rounded size
minus 8, the end mark `1` is stored at `heap_start + alloc_size` (byte
offset `4 + alloc_size`), the single free block's header stores
`alloc_size + 2` (previous-allocated convention bit) and its footer at
`heap_start + alloc_size - 4` stores `alloc_size`.
The `allocated_once` guard and an mmap failure only cause failures that
leave no heap; the successful execution is modelled. -/
def init_heap (sizeOfRegion : Int) : Option Heap :=
  if sizeOfRegion ≤ 0 then none
  else
    let padsize := (pagesize - sizeOfRegion % pagesize) % pagesize
    let asz := sizeOfRegion + padsize - 8
    let mem0 : Int → Int := fun _ => 0
    let mem1 := writeW mem0 (4 + asz) 1
    let mem2 := writeW mem1 4 asz
    let mem3 := writeW mem2 4 (readW mem2 4 + 2)
    let mem4 := writeW mem3 (4 + asz - 4) asz
    some { mem := mem4, allocSize := asz }

/-- Traversal of the block list from byte offset `pos`, exactly as
`disp_heap` walks it: collect `(offset, size_status)` pairs until a
word equal to `1` (the end mark) is reached; `none` when the fuel runs
out first. -/
def decode (mem : Int → Int) : Nat → Int → Option (List (Int × Int))
  | 0, _ => none
  | fuel+1, pos =>
    let v := readW mem pos
    if v = 1 then some []
    else
      match decode mem fuel (pos + msk v) with
      | none => none
      | some bs => some ((pos, v) :: bs)

/-- Sum of the masked block sizes of a decoded block list. -/
def sumSizes (L : List (Int × Int)) : Int := (L.map (fun pv => msk pv.2)).sum

/-- Every decoded block has a size that is a multiple of 8 and at least 8. -/
def blocksOk (L : List (Int × Int)) : Bool :=
  L.all (fun pv => decide (8 ≤ msk pv.2) && decide (msk pv.2 % 8 = 0))

/-- The decoded block list of a heap (empty when decoding fails). -/
def heapBlocks (h : Heap) : List (Int × Int) :=
  (decode h.mem (heapFuel h) 4).getD []

/-- Structural well-formedness of a heap: the usable size is a multiple
of 8 (and at least 8), and the traversal from `heap_start` decodes a
block list whose sizes are valid multiples of 8 summing exactly to
`alloc_size` — so the blocks tile the region and the traversal stops
precisely on the end-mark word at offset `4 + allocSize`. -/
def wf (h : Heap) : Bool :=
  decide (8 ≤ h.allocSize) && decide (h.allocSize % 8 = 0) &&
    match decode h.mem (heapFuel h) 4 with
    | none => false
    | some L => blocksOk L && decide (sumSizes L = h.allocSize)

/-- No two consecutive blocks of a decoded list are both free
(allocated bit clear). -/
def noAdjFree : List (Int × Int) → Bool
  | (_, v) :: (q, w) :: rest =>
    !(v % 2 == 0 && w % 2 == 0) && noAdjFree ((q, w) :: rest)
  | _ => true

/-- The free blocks of a decoded list that can hold a block of size `bs`. -/
def fits (bs : Int) (L : List (Int × Int)) : List (Int × Int) :=
  L.filter (fun pv => pv.2 % 2 == 0 && decide (bs ≤ msk pv.2))

/-- First element of a list minimizing the masked size (a later element
is preferred only when strictly smaller). -/
def firstMin : List (Int × Int) → Option (Int × Int)
  | [] => none
  | pv :: rest =>
    match firstMin rest with
    | none => some pv
    | some qv => if msk qv.2 < msk pv.2 then some qv else some pv

/-- The tie-keeping test of `pickBest`, carrying the incumbent's header
value instead of re-reading memory. -/
def betterP (curSize : Int) : Option (Int × Int) → Bool
  | none => true
  | some b => decide (curSize < msk b.2)

/-- The best-fit scan restated on a decoded block list (same control flow
as `ballocScan`, but carrying the incumbent's header value instead of
re-reading memory). -/
def pickBest (bs : Int) : List (Int × Int) → Option (Int × Int) → Option (Int × Int)
  | [], best => best
  | pv :: rest, best =>
    let takes : Bool := pv.2 % 2 == 0 && decide (bs ≤ msk pv.2) &&
      betterP (msk pv.2) best
    if takes then
      if msk pv.2 = bs then some pv
      else pickBest bs rest (some pv)
    else pickBest bs rest best

/-- Absorption of the leading free blocks of a list into an accumulated
header value, mirroring the inner loop of `coalesce`. -/
def absorb (v : Int) : List (Int × Int) → Int × List (Int × Int)
  | [] => (v, [])
  | (q, w) :: rest =>
    if w % 2 = 0 then absorb (v + msk w) rest else (v, (q, w) :: rest)

/-- One pass of `coalesce` restated on a decoded block list: an allocated
block is kept; at a free block the following free blocks are absorbed
into its header value and the following allocated block (when the run
does not end at the end mark) gets its previous-allocated bit set. -/
def coalSpec : List (Int × Int) → List (Int × Int)
  | [] => []
  | (p, v) :: rest =>
    if v % 2 = 0 then
      match habs : absorb v rest with
      | (mv, []) => [(p, mv)]
      | (mv, (q, w) :: rest2) => (p, mv) :: (q, setP w) :: coalSpec rest2
    else (p, v) :: coalSpec rest
termination_by L => L.length
decreasing_by
  · rename_i p v hv
    have h1 : ∀ (u : Int) (l : List (Int × Int)), (absorb u l).2.length ≤ l.length := by
      intro u l
      induction l generalizing u with
      | nil => simp [absorb]
      | cons qw rest2 ih =>
        obtain ⟨q2, w2⟩ := qw
        simp only [absorb]
        split
        · exact le_trans (ih _) (by simp)
        · simp
    have h2 := h1 v rest
    rw [habs] at h2
    simp at h2 ⊢
    omega
  · simp

/-- Iterated stores: write every `(offset, value)` pair of the list. -/
def overwrite (mem : Int → Int) : List (Int × Int) → (Int → Int)
  | [] => mem
  | (p, v) :: rest => writeW (overwrite mem rest) p v

/-- Heap states reachable by a successful `init_heap` followed by any
sequence of `balloc`, `bfree` and `coalesce` calls. -/
inductive Reach : Heap → Prop
  | init_ok (s : Int) (h : Heap) : init_heap s = some h → Reach h
  | alloc (h : Heap) (n : Int) : Reach h → Reach (balloc h n).2
  | free (h : Heap) (p : Int) : Reach h → Reach (bfree h p).2
  | coal (h : Heap) : Reach h → Reach (coalesce h).2

/-- Decoding from `pos` succeeds with result `L` for some fuel. -/
def Decodes (mem : Int → Int) (pos : Int) (L : List (Int × Int)) : Prop :=
  ∃ f, decode mem f pos = some L

/-- Prepend an optional incumbent to a candidate list. -/
def optCons (b : Option (Int × Int)) (l : List (Int × Int)) : List (Int × Int) :=
  match b with
  | none => l
  | some bv => bv :: l

/-- The memory written by a successful `bfree` of the block at header
offset `blk`: clear the allocated bit of the header and, unless the word
after the block is the end mark, clear the previous-allocated bit there. -/
def bfreeMem (m : Int → Int) (blk : Int) : Int → Int :=
  if readW (writeW m blk (clrA (readW m blk))) (blk + msk (readW m blk)) = 1 then
    writeW m blk (clrA (readW m blk))
  else
    writeW (writeW m blk (clrA (readW m blk))) (blk + msk (readW m blk))
      (clrP (readW (writeW m blk (clrA (readW m blk))) (blk + msk (readW m blk))))

/-- The memory written by the split branch of `balloc` (verbatim the
stores of lines 120-133 of the C source). -/
def ballocMemSplit (m : Int → Int) (bf bs : Int) : Int → Int :=
  let bfv := readW m bf
  let remainder := msk bfv - bs
  let mem1 := writeW m bf (setA (bs + low2 bfv))
  let newB := bf + bs
  let mem2 := writeW mem1 newB (remainder + 2)
  let nxt := newB + remainder
  if readW mem2 nxt = 1 then mem2
  else writeW mem2 nxt (setP (readW mem2 nxt))

/-- The memory written by the no-split branch of `balloc` (verbatim the
stores of lines 136-146 of the C source). -/
def ballocMemFull (m : Int → Int) (bf : Int) : Int → Int :=
  let mem1 := writeW m bf (setA (readW m bf))
  let nxt := bf + msk (readW mem1 bf)
  if readW mem1 nxt = 1 then mem1
  else writeW mem1 nxt (setP (readW mem1 nxt))

/-! ### Concrete heaps for witnesses and counterexamples -/

/-- Placeholder heap (never used: `init_heap 4096` succeeds). -/
def dfltHeap : Heap := ⟨fun _ => 0, 0⟩

/-- The heap right after a successful `init_heap(4096)`. -/
def heap0 : Heap := (init_heap 4096).getD dfltHeap

/-- `init_heap(4096)` followed by `balloc(8)`. -/
def heap1 : Heap := (balloc heap0 8).2

/-- `init_heap(4096)` followed by `balloc(50)` (a split of the initial block). -/
def heap2 : Heap := (balloc heap0 50).2

/-- Chain for the split counterexample: `balloc(40)`. -/
def heapA : Heap := (balloc heap0 40).2

/-- ... then `balloc(8)`. -/
def heapB : Heap := (balloc heapA 8).2

/-- ... then `bfree` of the first payload (offset 8). -/
def heapC : Heap := (bfree heapB 8).2

/-- ... then `balloc(8)` again, which splits the freed 48-byte block in
front of the allocated block at offset 52. -/
def heapD : Heap := (balloc heapC 8).2

/-- Chain for the coalesce counterexample: three `balloc(8)`. -/
def heapK3 : Heap := (balloc (balloc (balloc heap0 8).2 8).2 8).2

/-- ... then free the first two blocks. -/
def heapK5 : Heap := (bfree (bfree heapK3 8).2 24).2

/-- ... then `coalesce`, which merges the two 16-byte free blocks. -/
def heapK6 : Heap := (coalesce heapK5).2

/-- `init_heap(4096)`, `balloc(20)` (block of size 24 at offset 4), then
the caller stores the value 5 into the payload word at offset 12. -/
def heapU : Heap :=
  { (balloc heap0 20).2 with mem := writeW (balloc heap0 20).2.mem 12 5 }

/-! ### Arithmetic facts about the status-bit operations -/

theorem absorb_snd_length (v : Int) (l : List (Int × Int)) :
    (absorb v l).2.length ≤ l.length := by
  induction l generalizing v with
  | nil => simp [absorb]
  | cons qw rest ih =>
    obtain ⟨q, w⟩ := qw
    simp only [absorb]
    split
    · exact le_trans (ih _) (by simp)
    · simp

theorem msk_msk (x : Int) : msk (msk x) = msk x := by unfold msk; omega

theorem msk_mod4 (x : Int) : msk x % 4 = 0 := by unfold msk; omega

theorem msk_even (x : Int) : msk x % 2 = 0 := by unfold msk; omega

theorem msk_le_self (x : Int) : msk x ≤ x := by unfold msk; omega

theorem self_lt_msk_add4 (x : Int) : x < msk x + 4 := by unfold msk; omega

theorem msk_clrA (x : Int) : msk (clrA x) = msk x := by unfold msk clrA; omega

theorem msk_clrP (x : Int) : msk (clrP x) = msk x := by unfold msk clrP; omega

theorem msk_setA (x : Int) : msk (setA x) = msk x := by unfold msk setA; omega

theorem msk_setP (x : Int) : msk (setP x) = msk x := by unfold msk setP; omega

theorem msk_add_of_mod4 (x y : Int) (h : y % 4 = 0) :
    msk (x + y) = msk x + y := by unfold msk; omega

theorem setP_setP (x : Int) : setP (setP x) = setP x := by unfold setP; omega

theorem setP_parity (x : Int) : setP x % 2 = x % 2 := by unfold setP; omega

theorem clrP_parity (x : Int) : clrP x % 2 = x % 2 := by unfold clrP; omega

theorem setA_odd (x : Int) : setA x % 2 = 1 := by unfold setA; omega

theorem clrA_even (x : Int) : clrA x % 2 = 0 := by unfold clrA; omega

theorem ne_one_of_msk_ge (x : Int) (h : 8 ≤ msk x) : x ≠ 1 := by
  unfold msk at h; omega

theorem blockSizeOf_mod8 (n : Int) : blockSizeOf n % 8 = 0 := by
  unfold blockSizeOf; omega

theorem blockSizeOf_ge (n : Int) (h : 1 ≤ n) : 8 ≤ blockSizeOf n := by
  unfold blockSizeOf hdrSize; omega

/-! ### Word store and load -/

theorem readW_writeW_same (mem : Int → Int) (off v : Int) :
    readW (writeW mem off v) off = v := by simp [readW, writeW]

theorem readW_writeW_ne (mem : Int → Int) (off v x : Int) (h : x ≠ off) :
    readW (writeW mem off v) x = readW mem x := by simp [readW, writeW, h]

theorem writeW_apply (mem : Int → Int) (off v x : Int) :
    writeW mem off v x = if x = off then v else mem x := rfl

theorem msk_writeW (mem : Int → Int) (off v x : Int) (h : msk v = msk (mem off)) :
    msk (writeW mem off v x) = msk (mem x) := by
  rw [writeW_apply]
  split_ifs with hx
  · rw [hx, h]
  · rfl

theorem writeW_self (mem : Int → Int) (off : Int) :
    writeW mem off (readW mem off) = mem := by
  funext x; simp only [writeW, readW]; split <;> simp_all

theorem writeW_writeW_same (mem : Int → Int) (off v w : Int) :
    writeW (writeW mem off v) off w = writeW mem off w := by
  funext x; simp only [writeW]; split <;> rfl

theorem writeW_comm (mem : Int → Int) (p q v w : Int) (h : p ≠ q) :
    writeW (writeW mem p v) q w = writeW (writeW mem q w) p v := by
  funext x; simp only [writeW]
  split <;> split <;> simp_all

/-! ### Iterated stores -/

theorem overwrite_nil (mem : Int → Int) : overwrite mem [] = mem := rfl

theorem overwrite_cons (mem : Int → Int) (p v : Int) (L : List (Int × Int)) :
    overwrite mem ((p, v) :: L) = writeW (overwrite mem L) p v := rfl

theorem overwrite_read_notMem (mem : Int → Int) (L : List (Int × Int)) (x : Int)
    (h : ∀ pv ∈ L, pv.1 ≠ x) : overwrite mem L x = mem x := by
  induction L with
  | nil => rfl
  | cons pv rest ih =>
    obtain ⟨p, v⟩ := pv
    simp only [overwrite, writeW]
    rw [if_neg (fun hx => (h (p, v) (by simp) hx.symm))]
    exact ih (fun qv hq => h qv (by simp [hq]))

theorem overwrite_writeW_comm (mem : Int → Int) (L : List (Int × Int)) (p v : Int)
    (h : ∀ pv ∈ L, pv.1 ≠ p) :
    overwrite (writeW mem p v) L = writeW (overwrite mem L) p v := by
  induction L with
  | nil => rfl
  | cons qv rest ih =>
    obtain ⟨q, w⟩ := qv
    simp only [overwrite]
    rw [ih (fun rv hr => h rv (by simp [hr]))]
    exact writeW_comm _ _ _ _ _ (Ne.symm (h (q, w) (by simp)))

theorem overwrite_self (mem : Int → Int) (L : List (Int × Int))
    (h : ∀ pv ∈ L, mem pv.1 = pv.2) : overwrite mem L = mem := by
  induction L with
  | nil => rfl
  | cons pv rest ih =>
    obtain ⟨p, v⟩ := pv
    simp only [overwrite]
    rw [ih (fun qv hq => h qv (by simp [hq]))]
    have hv : v = readW mem p := (h (p, v) (by simp)).symm
    rw [hv, writeW_self]

/-! ### Facts about the block-list traversal -/

theorem sumSizes_nil : sumSizes [] = 0 := rfl

theorem sumSizes_cons (p v : Int) (L : List (Int × Int)) :
    sumSizes ((p, v) :: L) = msk v + sumSizes L := by simp [sumSizes]

theorem sumSizes_append (X Y : List (Int × Int)) :
    sumSizes (X ++ Y) = sumSizes X + sumSizes Y := by simp [sumSizes]

theorem decode_succ (mem : Int → Int) (f : Nat) (pos : Int) :
    decode mem (f + 1) pos =
      if readW mem pos = 1 then some []
      else
        match decode mem f (pos + msk (readW mem pos)) with
        | none => none
        | some bs => some ((pos, readW mem pos) :: bs) := rfl

theorem decode_fuel_exact (mem : Int → Int) :
    ∀ (f : Nat) (pos : Int) (L : List (Int × Int)),
      decode mem f pos = some L → decode mem (L.length + 1) pos = some L := by
  intro f
  induction f with
  | zero => intro pos L h; simp [decode] at h
  | succ f ih =>
    intro pos L h
    rw [decode_succ] at h
    by_cases hv : readW mem pos = 1
    · rw [if_pos hv] at h
      cases h
      simp [decode, hv]
    · rw [if_neg hv] at h
      cases hd : decode mem f (pos + msk (readW mem pos)) with
      | none => rw [hd] at h; simp at h
      | some bs =>
        rw [hd] at h
        simp at h
        cases h
        have hbs := ih _ _ hd
        rw [List.length_cons, decode_succ, if_neg hv, hbs]

theorem decode_mono (mem : Int → Int) :
    ∀ (f g : Nat) (pos : Int) (L : List (Int × Int)),
      decode mem f pos = some L → f ≤ g → decode mem g pos = some L := by
  intro f
  induction f with
  | zero => intro g pos L h; simp [decode] at h
  | succ f ih =>
    intro g pos L h hfg
    obtain ⟨g', rfl⟩ : ∃ g', g = g' + 1 := ⟨g - 1, by omega⟩
    rw [decode_succ] at h ⊢
    by_cases hv : readW mem pos = 1
    · rw [if_pos hv] at h ⊢; exact h
    · rw [if_neg hv] at h ⊢
      cases hd : decode mem f (pos + msk (readW mem pos)) with
      | none => rw [hd] at h; simp at h
      | some bs =>
        rw [hd] at h
        rw [ih g' _ _ hd (by omega)]
        exact h

theorem Decodes_nil_iff (mem : Int → Int) (pos : Int) :
    Decodes mem pos [] ↔ mem pos = 1 := by
  constructor
  · rintro ⟨f, hf⟩
    cases f with
    | zero => simp [decode] at hf
    | succ f =>
      simp only [decode] at hf
      by_cases hv : readW mem pos = 1
      · exact hv
      · rw [if_neg hv] at hf
        cases hd : decode mem f (pos + msk (readW mem pos)) with
        | none => rw [hd] at hf; simp at hf
        | some bs => rw [hd] at hf; simp at hf
  · intro hv
    exact ⟨1, by simp [decode, readW, hv]⟩

theorem Decodes_cons_iff (mem : Int → Int) (pos p v : Int) (L : List (Int × Int)) :
    Decodes mem pos ((p, v) :: L) ↔
      p = pos ∧ mem pos = v ∧ v ≠ 1 ∧ Decodes mem (pos + msk v) L := by
  constructor
  · rintro ⟨f, hf⟩
    cases f with
    | zero => simp [decode] at hf
    | succ f =>
      simp only [decode] at hf
      by_cases hv : readW mem pos = 1
      · rw [if_pos hv] at hf; simp at hf
      · rw [if_neg hv] at hf
        cases hd : decode mem f (pos + msk (readW mem pos)) with
        | none => rw [hd] at hf; simp at hf
        | some bs =>
          rw [hd] at hf
          simp at hf
          obtain ⟨⟨h1, h2⟩, h3⟩ := hf
          subst h1; subst h2; subst h3
          exact ⟨rfl, rfl, hv, ⟨f, hd⟩⟩
  · rintro ⟨rfl, hv, hne, ⟨f, hf⟩⟩
    refine ⟨f + 1, ?_⟩
    simp only [decode, readW]
    rw [hv, if_neg hne, hf]

theorem Decodes_values (mem : Int → Int) :
    ∀ (L : List (Int × Int)) (pos : Int), Decodes mem pos L →
      ∀ pv ∈ L, mem pv.1 = pv.2 := by
  intro L
  induction L with
  | nil => intro pos _ pv h; simp at h
  | cons qv rest ih =>
    intro pos hdec pv hpv
    obtain ⟨q, w⟩ := qv
    rw [Decodes_cons_iff] at hdec
    obtain ⟨hq, hv, _, hrest⟩ := hdec
    subst hq
    rcases List.mem_cons.mp hpv with h | h
    · subst h; exact hv
    · exact ih _ hrest pv h

theorem Decodes_stop (mem : Int → Int) :
    ∀ (L : List (Int × Int)) (pos : Int), Decodes mem pos L →
      mem (pos + sumSizes L) = 1 := by
  intro L
  induction L with
  | nil =>
    intro pos h
    rw [Decodes_nil_iff] at h
    simpa [sumSizes_nil] using h
  | cons qv rest ih =>
    intro pos hdec
    obtain ⟨q, w⟩ := qv
    rw [Decodes_cons_iff] at hdec
    obtain ⟨hq, _, _, hrest⟩ := hdec
    subst hq
    have hs := ih _ hrest
    rw [sumSizes_cons]
    rw [show q + (msk w + sumSizes rest) = q + msk w + sumSizes rest by ring]
    exact hs

theorem Decodes_pos_le (mem : Int → Int) :
    ∀ (L : List (Int × Int)) (pos : Int), Decodes mem pos L →
      (∀ pv ∈ L, 8 ≤ msk pv.2) → ∀ pv ∈ L, pos ≤ pv.1 := by
  intro L
  induction L with
  | nil => intro pos _ _ pv h; simp at h
  | cons qv rest ih =>
    intro pos hdec hok pv hpv
    obtain ⟨q, w⟩ := qv
    rw [Decodes_cons_iff] at hdec
    obtain ⟨hq, _, _, hrest⟩ := hdec
    subst hq
    rcases List.mem_cons.mp hpv with h | h
    · subst h; exact le_refl _
    · have h8 : 8 ≤ msk w := hok (q, w) (by simp)
      have hle := ih _ hrest (fun x hx => hok x (by simp [hx])) pv h
      omega

theorem Decodes_pairwise (mem : Int → Int) :
    ∀ (L : List (Int × Int)) (pos : Int), Decodes mem pos L →
      (∀ pv ∈ L, 8 ≤ msk pv.2) →
      L.Pairwise (fun a b => a.1 < b.1) := by
  intro L
  induction L with
  | nil => intro _ _ _; exact List.Pairwise.nil
  | cons qv rest ih =>
    intro pos hdec hok
    obtain ⟨q, w⟩ := qv
    rw [Decodes_cons_iff] at hdec
    obtain ⟨hq, _, _, hrest⟩ := hdec
    subst hq
    refine List.Pairwise.cons ?_ (ih _ hrest (fun x hx => hok x (by simp [hx])))
    intro pv hpv
    have h8 : 8 ≤ msk w := hok (q, w) (by simp)
    have hle := Decodes_pos_le mem rest (q + msk w) hrest
      (fun x hx => hok x (by simp [hx])) pv hpv
    simp only
    omega

theorem Decodes_frame_values (mem mem2 : Int → Int) :
    ∀ (L : List (Int × Int)) (pos : Int), Decodes mem pos L →
      (∀ pv ∈ L, mem2 pv.1 = mem pv.1) →
      mem2 (pos + sumSizes L) = mem (pos + sumSizes L) →
      Decodes mem2 pos L := by
  intro L
  induction L with
  | nil =>
    intro pos hdec _ hstop
    rw [Decodes_nil_iff] at hdec ⊢
    rw [sumSizes_nil, add_zero] at hstop
    rw [hstop]; exact hdec
  | cons qv rest ih =>
    intro pos hdec hvals hstop
    obtain ⟨q, w⟩ := qv
    rw [Decodes_cons_iff] at hdec ⊢
    obtain ⟨hq, hv, hne, hrest⟩ := hdec
    subst hq
    refine ⟨rfl, ?_, hne, ?_⟩
    · rw [hvals (q, w) (by simp)]; exact hv
    · refine ih (q + msk w) hrest (fun x hx => hvals x (by simp [hx])) ?_
      rw [sumSizes_cons] at hstop
      rw [show q + msk w + sumSizes rest = q + (msk w + sumSizes rest) by ring]
      exact hstop

theorem Decodes_frame_msk (mem mem2 : Int → Int) :
    ∀ (L : List (Int × Int)) (pos : Int), Decodes mem pos L →
      (∀ pv ∈ L, 8 ≤ msk pv.2) →
      (∀ pv ∈ L, msk (mem2 pv.1) = msk pv.2) →
      mem2 (pos + sumSizes L) = 1 →
      Decodes mem2 pos (L.map (fun pv => (pv.1, mem2 pv.1))) := by
  intro L
  induction L with
  | nil =>
    intro pos _ _ _ hstop
    rw [sumSizes_nil, add_zero] at hstop
    rw [List.map_nil, Decodes_nil_iff]
    exact hstop
  | cons qv rest ih =>
    intro pos hdec hok hmsk hstop
    obtain ⟨q, w⟩ := qv
    rw [Decodes_cons_iff] at hdec
    obtain ⟨hq, hv, hne, hrest⟩ := hdec
    subst hq
    have hm : msk (mem2 q) = msk w := hmsk (q, w) (by simp)
    have h8 : 8 ≤ msk w := hok (q, w) (by simp)
    rw [List.map_cons, Decodes_cons_iff]
    refine ⟨rfl, rfl, ne_one_of_msk_ge _ ?_, ?_⟩
    · show 8 ≤ msk (mem2 q)
      omega
    rw [hm]
    refine ih (q + msk w) hrest (fun x hx => hok x (by simp [hx]))
      (fun x hx => hmsk x (by simp [hx])) ?_
    rw [sumSizes_cons] at hstop
    rw [show q + msk w + sumSizes rest = q + (msk w + sumSizes rest) by ring]
    exact hstop

theorem Decodes_split (mem : Int → Int) :
    ∀ (X Y : List (Int × Int)) (pos : Int), Decodes mem pos (X ++ Y) →
      Decodes mem (pos + sumSizes X) Y := by
  intro X
  induction X with
  | nil => intro Y pos h; simpa [sumSizes_nil] using h
  | cons qv rest ih =>
    intro Y pos hdec
    obtain ⟨q, w⟩ := qv
    rw [List.cons_append, Decodes_cons_iff] at hdec
    obtain ⟨hq, _, _, hrest⟩ := hdec
    subst hq
    have hs := ih Y (q + msk w) hrest
    rw [sumSizes_cons]
    rw [show q + (msk w + sumSizes rest) = q + msk w + sumSizes rest by ring]
    exact hs

theorem Decodes_replace (mem mem2 : Int → Int) :
    ∀ (X Y Z : List (Int × Int)) (pos : Int), Decodes mem pos (X ++ Y) →
      (∀ pv ∈ X, mem2 pv.1 = pv.2) →
      Decodes mem2 (pos + sumSizes X) Z →
      Decodes mem2 pos (X ++ Z) := by
  intro X
  induction X with
  | nil => intro Y Z pos _ _ h; simpa [sumSizes_nil] using h
  | cons qv rest ih =>
    intro Y Z pos hdec hvals hZ
    obtain ⟨q, w⟩ := qv
    rw [List.cons_append, Decodes_cons_iff] at hdec
    obtain ⟨hq, hv, hne, hrest⟩ := hdec
    subst hq
    rw [List.cons_append, Decodes_cons_iff]
    refine ⟨rfl, hvals (q, w) (by simp), hne, ?_⟩
    refine ih Y Z (q + msk w) hrest (fun x hx => hvals x (by simp [hx])) ?_
    rw [sumSizes_cons] at hZ
    rw [show q + msk w + sumSizes rest = q + (msk w + sumSizes rest) by ring]
    exact hZ

theorem sumSizes_ge_of_blocksOk :
    ∀ L : List (Int × Int), blocksOk L = true → 8 * (L.length : Int) ≤ sumSizes L := by
  intro L
  induction L with
  | nil => simp [sumSizes_nil]
  | cons qv rest ih =>
    intro hok
    obtain ⟨q, w⟩ := qv
    simp only [blocksOk, List.all_cons, Bool.and_eq_true, decide_eq_true_eq] at hok
    obtain ⟨⟨h8, _⟩, hrest⟩ := hok
    have := ih hrest
    rw [sumSizes_cons]
    simp only [List.length_cons]
    push_cast
    omega

theorem length_lt_fuel (L : List (Int × Int)) (A : Int)
    (hok : blocksOk L = true) (hsum : sumSizes L = A) :
    L.length + 1 ≤ (A / 8 + 1).toNat := by
  have := sumSizes_ge_of_blocksOk L hok
  rw [hsum] at this
  omega

theorem blocksOk_mem :
    ∀ (L : List (Int × Int)), blocksOk L = true →
      ∀ pv ∈ L, 8 ≤ msk pv.2 ∧ msk pv.2 % 8 = 0 := by
  intro L hok pv hpv
  simp only [blocksOk, List.all_eq_true, Bool.and_eq_true, decide_eq_true_eq] at hok
  exact hok pv hpv

theorem blocksOk_of_mem :
    ∀ (L : List (Int × Int)),
      (∀ pv ∈ L, 8 ≤ msk pv.2 ∧ msk pv.2 % 8 = 0) → blocksOk L = true := by
  intro L h
  simp only [blocksOk, List.all_eq_true, Bool.and_eq_true, decide_eq_true_eq]
  exact h

/-! ### Facts about `absorb` and `coalSpec` -/

theorem absorb_nil (v : Int) : absorb v [] = (v, []) := rfl

theorem absorb_cons_free (v q w : Int) (rest : List (Int × Int)) (h : w % 2 = 0) :
    absorb v ((q, w) :: rest) = absorb (v + msk w) rest := by
  simp [absorb, h]

theorem absorb_cons_alloc (v q w : Int) (rest : List (Int × Int)) (h : w % 2 ≠ 0) :
    absorb v ((q, w) :: rest) = (v, (q, w) :: rest) := by
  simp [absorb, h]

theorem absorb_parity (l : List (Int × Int)) :
    ∀ v : Int, (absorb v l).1 % 2 = v % 2 := by
  induction l with
  | nil => intro v; simp [absorb_nil]
  | cons qw rest ih =>
    intro v
    obtain ⟨q, w⟩ := qw
    by_cases h : w % 2 = 0
    · rw [absorb_cons_free _ _ _ _ h, ih]
      have := msk_even w
      omega
    · rw [absorb_cons_alloc _ _ _ _ h]

theorem absorb_stop (l : List (Int × Int)) :
    ∀ (v mv q w : Int) (rest2 : List (Int × Int)),
      absorb v l = (mv, (q, w) :: rest2) → w % 2 ≠ 0 := by
  induction l with
  | nil => intro v mv q w rest2 h; simp [absorb_nil] at h
  | cons qw rest ih =>
    intro v mv q w rest2 h
    obtain ⟨q0, w0⟩ := qw
    by_cases h0 : w0 % 2 = 0
    · rw [absorb_cons_free _ _ _ _ h0] at h
      exact ih _ _ _ _ _ h
    · rw [absorb_cons_alloc _ _ _ _ h0] at h
      simp at h
      obtain ⟨-, ⟨-, hw2⟩, -⟩ := h
      subst hw2
      exact h0

theorem absorb_suffix (l : List (Int × Int)) :
    ∀ v : Int, (absorb v l).2.IsSuffix l := by
  induction l with
  | nil => intro v; simp [absorb_nil]
  | cons qw rest ih =>
    intro v
    obtain ⟨q, w⟩ := qw
    by_cases h : w % 2 = 0
    · rw [absorb_cons_free _ _ _ _ h]
      exact (ih _).trans (List.suffix_cons (q, w) rest)
    · rw [absorb_cons_alloc _ _ _ _ h]

theorem absorb_sum (l : List (Int × Int)) :
    ∀ v : Int,
      msk (absorb v l).1 + sumSizes (absorb v l).2 = msk v + sumSizes l := by
  induction l with
  | nil => intro v; simp [absorb_nil, sumSizes_nil]
  | cons qw rest ih =>
    intro v
    obtain ⟨q, w⟩ := qw
    by_cases h : w % 2 = 0
    · rw [absorb_cons_free _ _ _ _ h, sumSizes_cons, ih,
        msk_add_of_mod4 _ _ (msk_mod4 w)]
      ring
    · rw [absorb_cons_alloc _ _ _ _ h]

theorem absorb_msk (l : List (Int × Int)) :
    ∀ v : Int, (∀ pv ∈ l, 8 ≤ msk pv.2 ∧ msk pv.2 % 8 = 0) →
      msk v ≤ msk (absorb v l).1 ∧ msk (absorb v l).1 % 8 = msk v % 8 := by
  induction l with
  | nil => intro v _; simp [absorb_nil]
  | cons qw rest ih =>
    intro v hok
    obtain ⟨q, w⟩ := qw
    by_cases h : w % 2 = 0
    · rw [absorb_cons_free _ _ _ _ h]
      have h1 := ih (v + msk w) (fun x hx => hok x (by simp [hx]))
      have h2 := hok (q, w) (by simp)
      rw [msk_add_of_mod4 _ _ (msk_mod4 w)] at h1
      simp only at h2
      omega
    · rw [absorb_cons_alloc _ _ _ _ h]
      simp

theorem coalSpec_nil : coalSpec [] = [] := by simp [coalSpec]

theorem coalSpec_cons_alloc (p v : Int) (rest : List (Int × Int)) (h : v % 2 ≠ 0) :
    coalSpec ((p, v) :: rest) = (p, v) :: coalSpec rest := by
  rw [coalSpec]
  simp [h]

theorem coalSpec_cons_free_last (p v mv : Int) (rest : List (Int × Int))
    (h : v % 2 = 0) (habs : absorb v rest = (mv, [])) :
    coalSpec ((p, v) :: rest) = [(p, mv)] := by
  rw [coalSpec]
  simp only [h, if_true, if_pos]
  split
  · rename_i mv2 heq
    rw [habs] at heq
    simp at heq
    rw [heq]
  · rename_i mv2 q2 w2 rest3 heq
    rw [habs] at heq
    simp at heq

theorem coalSpec_cons_free_mid (p v mv q w : Int) (rest rest2 : List (Int × Int))
    (h : v % 2 = 0) (habs : absorb v rest = (mv, (q, w) :: rest2)) :
    coalSpec ((p, v) :: rest) = (p, mv) :: (q, setP w) :: coalSpec rest2 := by
  rw [coalSpec]
  simp only [h, if_true, if_pos]
  split
  · rename_i mv2 heq
    rw [habs] at heq
    simp at heq
  · rename_i mv2 q2 w2 rest3 heq
    rw [habs] at heq
    simp at heq
    obtain ⟨h1, ⟨h2, h3⟩, h4⟩ := heq
    subst h1; subst h2; subst h3; subst h4
    rfl

theorem coalSpec_pos_subset (L : List (Int × Int)) :
    ∀ pv ∈ coalSpec L, ∃ qv ∈ L, qv.1 = pv.1 := by
  induction L using coalSpec.induct with
  | case1 => simp [coalSpec_nil]
  | case2 p v rest hv mv habs =>
    rw [coalSpec_cons_free_last p v mv rest hv habs]
    intro pv hpv
    simp at hpv
    subst hpv
    exact ⟨(p, v), by simp⟩
  | case3 p v rest hv mv q w rest2 habs ih =>
    rw [coalSpec_cons_free_mid p v mv q w rest rest2 hv habs]
    intro pv hpv
    rcases List.mem_cons.mp hpv with h1 | h1
    · subst h1
      exact ⟨(p, v), by simp⟩
    have hsuf : ((q, w) :: rest2).IsSuffix rest := by
      have hs := absorb_suffix rest v
      rw [habs] at hs
      exact hs
    rcases List.mem_cons.mp h1 with h2 | h2
    · subst h2
      refine ⟨(q, w), ?_, rfl⟩
      exact List.mem_cons.mpr (Or.inr (hsuf.subset (List.mem_cons_self _ _)))
    · obtain ⟨qv, hq1, hq2⟩ := ih pv h2
      refine ⟨qv, ?_, hq2⟩
      exact List.mem_cons.mpr (Or.inr (hsuf.subset (List.mem_cons.mpr (Or.inr hq1))))
  | case4 p v rest hv ih =>
    rw [coalSpec_cons_alloc p v rest hv]
    intro pv hpv
    rcases List.mem_cons.mp hpv with h1 | h1
    · subst h1
      exact ⟨(p, v), by simp⟩
    · obtain ⟨qv, hq1, hq2⟩ := ih pv h1
      exact ⟨qv, by simp [hq1], hq2⟩

theorem coalSpec_sum (L : List (Int × Int)) :
    sumSizes (coalSpec L) = sumSizes L := by
  induction L using coalSpec.induct with
  | case1 => simp [coalSpec_nil]
  | case2 p v rest hv mv habs =>
    rw [coalSpec_cons_free_last p v mv rest hv habs]
    have hs := absorb_sum rest v
    rw [habs] at hs
    simp only [sumSizes_cons, sumSizes_nil] at hs ⊢
    omega
  | case3 p v rest hv mv q w rest2 habs ih =>
    rw [coalSpec_cons_free_mid p v mv q w rest rest2 hv habs]
    have hs := absorb_sum rest v
    rw [habs] at hs
    simp only [sumSizes_cons, msk_setP] at hs ⊢
    omega
  | case4 p v rest hv ih =>
    rw [coalSpec_cons_alloc p v rest hv]
    simp only [sumSizes_cons, ih]

theorem coalSpec_blocksOk (L : List (Int × Int)) (hok : blocksOk L = true) :
    blocksOk (coalSpec L) = true := by
  induction L using coalSpec.induct with
  | case1 => simp [coalSpec_nil, blocksOk]
  | case2 p v rest hv mv habs =>
    rw [coalSpec_cons_free_last p v mv rest hv habs]
    have h1 := blocksOk_mem _ hok (p, v) (by simp)
    have h2 := absorb_msk rest v
      (fun x hx => blocksOk_mem _ hok x (by simp [hx]))
    rw [habs] at h2
    refine blocksOk_of_mem _ ?_
    intro pv hpv
    simp at hpv
    subst hpv
    simp only at h1 h2 ⊢
    omega
  | case3 p v rest hv mv q w rest2 habs ih =>
    rw [coalSpec_cons_free_mid p v mv q w rest rest2 hv habs]
    have hsuf : ((q, w) :: rest2).IsSuffix rest := by
      have := absorb_suffix rest v
      rw [habs] at this
      exact this
    have hrest2 : blocksOk rest2 = true := by
      refine blocksOk_of_mem _ ?_
      intro x hx
      exact blocksOk_mem _ hok x (by simp [hsuf.subset (List.mem_cons.mpr (Or.inr hx))])
    have h1 := blocksOk_mem _ hok (p, v) (by simp)
    have h2 := absorb_msk rest v
      (fun x hx => blocksOk_mem _ hok x (by simp [hx]))
    rw [habs] at h2
    have h3 := blocksOk_mem _ hok (q, w)
      (List.mem_cons.mpr (Or.inr (hsuf.subset (List.mem_cons_self _ _))))
    refine blocksOk_of_mem _ ?_
    intro pv hpv
    rcases List.mem_cons.mp hpv with hh | hh
    · subst hh
      simp only at h1 h2 ⊢
      omega
    rcases List.mem_cons.mp hh with hh2 | hh2
    · subst hh2
      simp only [msk_setP] at h3 ⊢
      exact h3
    · exact blocksOk_mem _ (ih hrest2) pv hh2
  | case4 p v rest hv ih =>
    rw [coalSpec_cons_alloc p v rest hv]
    have hrest : blocksOk rest = true := by
      refine blocksOk_of_mem _ ?_
      intro x hx
      exact blocksOk_mem _ hok x (by simp [hx])
    refine blocksOk_of_mem _ ?_
    intro pv hpv
    rcases List.mem_cons.mp hpv with hh | hh
    · subst hh
      exact blocksOk_mem _ hok (p, v) (by simp)
    · exact blocksOk_mem _ (ih hrest) pv hh

theorem coalSpec_length_le (L : List (Int × Int)) :
    (coalSpec L).length ≤ L.length := by
  induction L using coalSpec.induct with
  | case1 => simp [coalSpec_nil]
  | case2 p v rest hv mv habs =>
    rw [coalSpec_cons_free_last p v mv rest hv habs]
    simp
  | case3 p v rest hv mv q w rest2 habs ih =>
    rw [coalSpec_cons_free_mid p v mv q w rest rest2 hv habs]
    have hsuf : ((q, w) :: rest2).IsSuffix rest := by
      have := absorb_suffix rest v
      rw [habs] at this
      exact this
    have := hsuf.length_le
    simp at this ⊢
    omega
  | case4 p v rest hv ih =>
    rw [coalSpec_cons_alloc p v rest hv]
    simp
    omega

theorem noAdjFree_cons_alloc (q x : Int) (M : List (Int × Int))
    (hx : x % 2 ≠ 0) (hM : noAdjFree M = true) :
    noAdjFree ((q, x) :: M) = true := by
  cases M with
  | nil => simp [noAdjFree]
  | cons yv rest =>
    obtain ⟨y, u⟩ := yv
    simp only [noAdjFree, Bool.and_eq_true, Bool.not_eq_true']
    exact ⟨by simp [hx], hM⟩

theorem coalSpec_noAdjFree (L : List (Int × Int)) :
    noAdjFree (coalSpec L) = true := by
  induction L using coalSpec.induct with
  | case1 => simp [coalSpec_nil, noAdjFree]
  | case2 p v rest hv mv habs =>
    rw [coalSpec_cons_free_last p v mv rest hv habs]
    simp [noAdjFree]
  | case3 p v rest hv mv q w rest2 habs ih =>
    rw [coalSpec_cons_free_mid p v mv q w rest rest2 hv habs]
    have hw : w % 2 ≠ 0 := absorb_stop rest v mv q w rest2 habs
    have hsp : setP w % 2 ≠ 0 := by rw [setP_parity]; exact hw
    have h2 : noAdjFree ((q, setP w) :: coalSpec rest2) = true :=
      noAdjFree_cons_alloc _ _ _ hsp ih
    cases hcs : coalSpec rest2 with
    | nil => simp [noAdjFree, hsp]
    | cons yv rest3 =>
      rw [hcs] at h2
      simp only [noAdjFree, Bool.and_eq_true, Bool.not_eq_true'] at h2 ⊢
      refine ⟨by simp [hsp], h2⟩
  | case4 p v rest hv ih =>
    rw [coalSpec_cons_alloc p v rest hv]
    exact noAdjFree_cons_alloc _ _ _ hv ih

theorem coalSpec_idem (L : List (Int × Int)) :
    coalSpec (coalSpec L) = coalSpec L := by
  induction L using coalSpec.induct with
  | case1 => simp [coalSpec_nil]
  | case2 p v rest hv mv habs =>
    rw [coalSpec_cons_free_last p v mv rest hv habs]
    have hmv : mv % 2 = 0 := by
      have := absorb_parity rest v
      rw [habs] at this
      simp at this
      omega
    exact coalSpec_cons_free_last p mv mv [] hmv (absorb_nil mv)
  | case3 p v rest hv mv q w rest2 habs ih =>
    rw [coalSpec_cons_free_mid p v mv q w rest rest2 hv habs]
    have hmv : mv % 2 = 0 := by
      have := absorb_parity rest v
      rw [habs] at this
      simp at this
      omega
    have hw : w % 2 ≠ 0 := absorb_stop rest v mv q w rest2 habs
    have hsp : setP w % 2 ≠ 0 := by rw [setP_parity]; exact hw
    have habs2 : absorb mv ((q, setP w) :: coalSpec rest2) =
        (mv, (q, setP w) :: coalSpec rest2) :=
      absorb_cons_alloc _ _ _ _ hsp
    rw [coalSpec_cons_free_mid p mv mv q (setP w) _ (coalSpec rest2) hmv habs2]
    rw [setP_setP, ih]
  | case4 p v rest hv ih =>
    rw [coalSpec_cons_alloc p v rest hv, coalSpec_cons_alloc p v _ hv, ih]

/-! ### Facts about the best-fit selection -/

theorem firstMin_nil : firstMin [] = none := rfl

theorem firstMin_cons (pv : Int × Int) (rest : List (Int × Int)) :
    firstMin (pv :: rest) =
      match firstMin rest with
      | none => some pv
      | some qv => if msk qv.2 < msk pv.2 then some qv else some pv := rfl

theorem firstMin_none_iff (l : List (Int × Int)) : firstMin l = none ↔ l = [] := by
  cases l with
  | nil => simp [firstMin_nil]
  | cons pv rest =>
    rw [firstMin_cons]
    constructor
    · intro h
      cases hr : firstMin rest with
      | none => rw [hr] at h; simp at h
      | some qv =>
        rw [hr] at h
        by_cases hlt : msk qv.2 < msk pv.2 <;> simp [hlt] at h
    · intro h; simp at h

theorem firstMin_mem (l : List (Int × Int)) :
    ∀ pv, firstMin l = some pv → pv ∈ l := by
  induction l with
  | nil => intro pv h; simp [firstMin_nil] at h
  | cons qv rest ih =>
    intro pv h
    rw [firstMin_cons] at h
    cases hr : firstMin rest with
    | none => rw [hr] at h; simp at h; simp [h]
    | some rv =>
      rw [hr] at h
      dsimp only at h
      by_cases hlt : msk rv.2 < msk qv.2
      · rw [if_pos hlt] at h
        simp at h
        subst h
        exact List.mem_cons.mpr (Or.inr (ih rv hr))
      · rw [if_neg hlt] at h
        simp at h
        simp [h]

theorem firstMin_le (l : List (Int × Int)) :
    ∀ pv, firstMin l = some pv → ∀ qv ∈ l, msk pv.2 ≤ msk qv.2 := by
  induction l with
  | nil => intro pv h; simp [firstMin_nil] at h
  | cons cv rest ih =>
    intro pv h qv hqv
    rw [firstMin_cons] at h
    rcases List.mem_cons.mp hqv with hq | hq
    · subst hq
      cases hr : firstMin rest with
      | none => rw [hr] at h; simp at h; simp [h]
      | some rv =>
        rw [hr] at h
        dsimp only at h
        by_cases hlt : msk rv.2 < msk qv.2
        · rw [if_pos hlt] at h
          simp at h
          subst h
          omega
        · rw [if_neg hlt] at h
          simp at h
          simp [h]
    · cases hr : firstMin rest with
      | none =>
        rw [firstMin_none_iff] at hr
        subst hr
        simp at hq
      | some rv =>
        rw [hr] at h
        dsimp only at h
        have hrle := ih rv hr qv hq
        by_cases hlt : msk rv.2 < msk cv.2
        · rw [if_pos hlt] at h
          simp at h
          subst h
          exact hrle
        · rw [if_neg hlt] at h
          simp at h
          subst h
          omega

theorem firstMin_cons_none (pv : Int × Int) (rest : List (Int × Int))
    (h : firstMin rest = none) : firstMin (pv :: rest) = some pv := by
  rw [firstMin_cons, h]

theorem firstMin_cons_some (pv rv : Int × Int) (rest : List (Int × Int))
    (h : firstMin rest = some rv) :
    firstMin (pv :: rest) =
      if msk rv.2 < msk pv.2 then some rv else some pv := by
  rw [firstMin_cons, h]

theorem firstMin_cons_min (c : Int × Int) (l : List (Int × Int))
    (h : ∀ x ∈ l, msk c.2 ≤ msk x.2) : firstMin (c :: l) = some c := by
  cases hr : firstMin l with
  | none => exact firstMin_cons_none c l hr
  | some rv =>
    have hle := h rv (firstMin_mem l rv hr)
    rw [firstMin_cons_some c rv l hr, if_neg (by omega)]

theorem firstMin_cons_drop (b : Int × Int) (l : List (Int × Int))
    (h : ∃ x ∈ l, msk x.2 < msk b.2) : firstMin (b :: l) = firstMin l := by
  obtain ⟨x, hx, hlt⟩ := h
  cases hr : firstMin l with
  | none =>
    rw [firstMin_none_iff] at hr
    subst hr
    simp at hx
  | some rv =>
    have hle := firstMin_le l rv hr x hx
    rw [firstMin_cons_some b rv l hr, if_pos (by omega)]

theorem firstMin_cons_skip (b c : Int × Int) (l : List (Int × Int))
    (h : msk b.2 ≤ msk c.2) : firstMin (b :: c :: l) = firstMin (b :: l) := by
  cases hr : firstMin l with
  | none =>
    rw [firstMin_cons_some b c (c :: l) (firstMin_cons_none c l hr),
      if_neg (by omega), firstMin_cons_none b l hr]
  | some rv =>
    by_cases h1 : msk rv.2 < msk c.2
    · have hcl : firstMin (c :: l) = some rv := by
        rw [firstMin_cons_some c rv l hr, if_pos h1]
      rw [firstMin_cons_some b rv (c :: l) hcl, firstMin_cons_some b rv l hr]
    · have hcl : firstMin (c :: l) = some c := by
        rw [firstMin_cons_some c rv l hr, if_neg h1]
      rw [firstMin_cons_some b c (c :: l) hcl, if_neg (by omega),
        firstMin_cons_some b rv l hr, if_neg (by omega)]

theorem firstMin_tie_earliest (l : List (Int × Int)) :
    ∀ pv, firstMin l = some pv → l.Pairwise (fun a b => a.1 < b.1) →
      ∀ qv ∈ l, msk qv.2 = msk pv.2 → pv.1 ≤ qv.1 := by
  induction l with
  | nil => intro pv h; simp [firstMin_nil] at h
  | cons cv rest ih =>
    intro pv h hpw qv hqv heq
    have hpw2 := List.pairwise_cons.mp hpw
    cases hr : firstMin rest with
    | none =>
      rw [firstMin_cons_none cv rest hr] at h
      simp at h
      subst h
      rw [firstMin_none_iff] at hr
      subst hr
      simp at hqv
      subst hqv
      exact le_refl _
    | some rv =>
      rw [firstMin_cons_some cv rv rest hr] at h
      by_cases hlt : msk rv.2 < msk cv.2
      · rw [if_pos hlt] at h
        simp at h
        subst h
        rcases List.mem_cons.mp hqv with hq | hq
        · subst hq
          omega
        · exact ih rv hr hpw2.2 qv hq heq
      · rw [if_neg hlt] at h
        simp at h
        subst h
        rcases List.mem_cons.mp hqv with hq | hq
        · subst hq
          exact le_refl _
        · exact le_of_lt (hpw2.1 qv hq)

theorem mem_fits (bs : Int) (L : List (Int × Int)) (qv : Int × Int) :
    qv ∈ fits bs L ↔ qv ∈ L ∧ qv.2 % 2 = 0 ∧ bs ≤ msk qv.2 := by
  simp [fits, List.mem_filter, and_assoc]

theorem fits_cons_in (bs p v : Int) (rest : List (Int × Int))
    (h : v % 2 = 0 ∧ bs ≤ msk v) :
    fits bs ((p, v) :: rest) = (p, v) :: fits bs rest := by
  simp [fits, List.filter_cons, h.1, h.2]

theorem fits_cons_out (bs p v : Int) (rest : List (Int × Int))
    (h : ¬(v % 2 = 0 ∧ bs ≤ msk v)) :
    fits bs ((p, v) :: rest) = fits bs rest := by
  rw [fits, List.filter_cons, if_neg, ← fits]
  simp only [Bool.and_eq_true, beq_iff_eq, decide_eq_true_eq]
  exact h

theorem pickBest_nil (bs : Int) (b : Option (Int × Int)) :
    pickBest bs [] b = b := rfl

theorem pickBest_cons (bs p v : Int) (rest : List (Int × Int))
    (b : Option (Int × Int)) :
    pickBest bs ((p, v) :: rest) b =
      if (v % 2 == 0 && decide (bs ≤ msk v) && betterP (msk v) b) = true then
        (if msk v = bs then some (p, v) else pickBest bs rest (some (p, v)))
      else pickBest bs rest b := rfl

theorem pickBest_eq (bs : Int) :
    ∀ (L : List (Int × Int)) (b : Option (Int × Int)),
      pickBest bs L b = firstMin (optCons b (fits bs L)) := by
  intro L
  induction L with
  | nil =>
    intro b
    cases b with
    | none => rfl
    | some bv => simp [pickBest_nil, fits, optCons, firstMin_cons, firstMin_nil]
  | cons pv rest ih =>
    intro b
    obtain ⟨p, v⟩ := pv
    by_cases hcand : v % 2 = 0 ∧ bs ≤ msk v
    · rw [fits_cons_in bs p v rest hcand]
      cases b with
      | none =>
        have htakes : (v % 2 == 0 && decide (bs ≤ msk v) &&
            betterP (msk v) none) = true := by
          simp [betterP, hcand.1, hcand.2]
        rw [pickBest_cons]
        simp only [htakes, if_true]
        by_cases hex : msk v = bs
        · rw [if_pos hex]
          have : ∀ x ∈ fits bs rest, msk (p, v).2 ≤ msk x.2 := by
            intro x hx
            have := (mem_fits bs rest x).mp hx
            simp only
            omega
          rw [optCons, firstMin_cons_min (p, v) _ this]
        · rw [if_neg hex, ih (some (p, v))]
          rfl
      | some bv =>
        by_cases hbetter : msk v < msk bv.2
        · have htakes : (v % 2 == 0 && decide (bs ≤ msk v) &&
              betterP (msk v) (some bv)) = true := by
            simp [betterP, hcand.1, hcand.2, hbetter]
          rw [pickBest_cons]
          simp only [htakes, if_true]
          have hdrop : firstMin (optCons (some bv) ((p, v) :: fits bs rest)) =
              firstMin ((p, v) :: fits bs rest) := by
            refine firstMin_cons_drop bv _ ⟨(p, v), by simp, ?_⟩
            simp only
            omega
          by_cases hex : msk v = bs
          · rw [if_pos hex, hdrop]
            have : ∀ x ∈ fits bs rest, msk (p, v).2 ≤ msk x.2 := by
              intro x hx
              have := (mem_fits bs rest x).mp hx
              simp only
              omega
            rw [firstMin_cons_min (p, v) _ this]
          · rw [if_neg hex, ih (some (p, v)), hdrop]
            rfl
        · have htakes : (v % 2 == 0 && decide (bs ≤ msk v) &&
              betterP (msk v) (some bv)) = false := by
            simp [betterP, hbetter]
          rw [pickBest_cons]
          simp only [htakes, Bool.false_eq_true, if_false]
          rw [ih (some bv)]
          show firstMin (bv :: fits bs rest) = firstMin (bv :: (p, v) :: fits bs rest)
          rw [firstMin_cons_skip bv (p, v) (fits bs rest) (by simp only; omega)]
    · rw [fits_cons_out bs p v rest hcand]
      have htakes : ∀ b2 : Option (Int × Int), (v % 2 == 0 && decide (bs ≤ msk v) &&
          betterP (msk v) b2) = false := by
        intro b2
        rcases Decidable.not_and_iff_or_not.mp hcand with hc | hc
        · simp [betterP, hc]
        · have hc2 : ¬ bs ≤ msk v := hc
          simp [betterP, hc2]
      rw [pickBest_cons]
      simp only [htakes, Bool.false_eq_true, if_false]
      exact ih b

/-- The scan of `balloc` computes `pickBest` of the decoded block list:
the incumbent pointer `bO` and the incumbent pair `bP` stay related by
`bP = (bO, mem bO)`. -/
theorem ballocScan_eq_pickBest (mem : Int → Int) (bs : Int) :
    ∀ (L : List (Int × Int)) (pos : Int) (F : Nat)
      (bO : Option Int) (bP : Option (Int × Int)),
      Decodes mem pos L → L.length + 1 ≤ F →
      bO = bP.map (fun b => b.1) → (∀ b ∈ bP, mem b.1 = b.2) →
      ballocScan mem bs F pos bO = (pickBest bs L bP).map (fun b => b.1) := by
  intro L
  induction L with
  | nil =>
    intro pos F bO bP hdec hF hrel hval
    rw [Decodes_nil_iff] at hdec
    obtain ⟨F', rfl⟩ : ∃ F', F = F' + 1 := ⟨F - 1, by omega⟩
    rw [ballocScan]
    simp only [readW, hdec, if_pos]
    rw [pickBest_nil]
    exact hrel
  | cons pv rest ih =>
    intro pos F bO bP hdec hF hrel hval
    obtain ⟨p, v⟩ := pv
    rw [Decodes_cons_iff] at hdec
    obtain ⟨hp, hv, hne, hrest⟩ := hdec
    subst hp
    obtain ⟨F', rfl⟩ : ∃ F', F = F' + 1 := ⟨F - 1, by omega⟩
    rw [ballocScan, pickBest_cons]
    simp only [readW, hv, if_neg hne]
    have hmatch : betterB mem (msk v) bO = betterP (msk v) bP := by
      cases bP with
      | none =>
        simp only [Option.map_none'] at hrel
        subst hrel
        rfl
      | some b =>
        simp only [Option.map_some'] at hrel
        subst hrel
        have hb := hval b (by simp)
        simp only [betterB, betterP, readW, hb]
    rw [hmatch]
    by_cases htakes : (v % 2 == 0 && decide (bs ≤ msk v) &&
        betterP (msk v) bP) = true
    · rw [htakes]
      simp only [if_true]
      by_cases hex : msk v = bs
      · rw [if_pos hex, if_pos hex]
        rfl
      · rw [if_neg hex, if_neg hex]
        exact ih (p + msk v) F' (some p) (some (p, v)) hrest (by simp at hF ⊢; omega)
          (by simp) (by simpa using hv)
    · rw [Bool.not_eq_true] at htakes
      rw [htakes]
      simp only [Bool.false_eq_true, if_false]
      exact ih (p + msk v) F' bO bP hrest (by simp at hF ⊢; omega) hrel hval

/-! ### The well-formedness interface -/

theorem sumSizes_nonneg (L : List (Int × Int)) (hok : blocksOk L = true) :
    0 ≤ sumSizes L := by
  have := sumSizes_ge_of_blocksOk L hok
  have : (0 : Int) ≤ 8 * (L.length : Int) := by positivity
  omega

theorem sumSizes_map_eq (mem2 : Int → Int) (L : List (Int × Int))
    (h : ∀ pv ∈ L, msk (mem2 pv.1) = msk pv.2) :
    sumSizes (L.map (fun pv => (pv.1, mem2 pv.1))) = sumSizes L := by
  induction L with
  | nil => rfl
  | cons pv rest ih =>
    rw [List.map_cons, sumSizes_cons, sumSizes_cons]
    rw [show msk (pv.1, mem2 pv.1).2 = msk pv.2 from h pv (by simp),
      ih (fun x hx => h x (by simp [hx]))]

theorem blocksOk_map (mem2 : Int → Int) (L : List (Int × Int))
    (hok : blocksOk L = true)
    (h : ∀ pv ∈ L, msk (mem2 pv.1) = msk pv.2) :
    blocksOk (L.map (fun pv => (pv.1, mem2 pv.1))) = true := by
  refine blocksOk_of_mem _ ?_
  intro pv hpv
  rw [List.mem_map] at hpv
  obtain ⟨qv, hq, rfl⟩ := hpv
  have h1 := blocksOk_mem _ hok qv hq
  have h2 := h qv hq
  simp only
  omega

theorem wf_elim (h : Heap) (hwf : wf h = true) :
    8 ≤ h.allocSize ∧ h.allocSize % 8 = 0 ∧
      ∃ L, decode h.mem (heapFuel h) 4 = some L ∧ blocksOk L = true ∧
        sumSizes L = h.allocSize := by
  unfold wf at hwf
  cases hd : decode h.mem (heapFuel h) 4 with
  | none => rw [hd] at hwf; simp at hwf
  | some L =>
    rw [hd] at hwf
    simp only [Bool.and_eq_true, decide_eq_true_eq] at hwf
    exact ⟨hwf.1.1, hwf.1.2, L, rfl, hwf.2.1, hwf.2.2⟩

theorem wf_intro (h : Heap) (L : List (Int × Int))
    (h8 : 8 ≤ h.allocSize) (hm : h.allocSize % 8 = 0)
    (hdec : Decodes h.mem 4 L) (hok : blocksOk L = true)
    (hsum : sumSizes L = h.allocSize) : wf h = true := by
  obtain ⟨f, hf⟩ := hdec
  have hexact := decode_fuel_exact h.mem f 4 L hf
  have hfuel : L.length + 1 ≤ heapFuel h := by
    have := length_lt_fuel L h.allocSize hok hsum
    unfold heapFuel
    exact this
  have hd : decode h.mem (heapFuel h) 4 = some L :=
    decode_mono h.mem _ _ 4 L hexact hfuel
  unfold wf
  rw [hd]
  simp only [Bool.and_eq_true, decide_eq_true_eq]
  exact ⟨⟨h8, hm⟩, hok, hsum⟩

/-- `wf` gives the decoded list in `Decodes` form. -/
theorem wf_decodes (h : Heap) (hwf : wf h = true) :
    ∃ L, Decodes h.mem 4 L ∧ blocksOk L = true ∧
      sumSizes L = h.allocSize ∧
      decode h.mem (heapFuel h) 4 = some L := by
  obtain ⟨-, -, L, hd, hok, hsum⟩ := wf_elim h hwf
  exact ⟨L, ⟨_, hd⟩, hok, hsum, hd⟩

/-! ### `init_heap` establishes the invariant -/

theorem init_heap_wf (s : Int) (h : Heap) (hinit : init_heap s = some h) :
    wf h = true ∧
      Decodes h.mem 4 [(4, h.allocSize + 2)] ∧
      h.mem (4 + h.allocSize) = 1 := by
  unfold init_heap at hinit
  by_cases hs : s ≤ 0
  · rw [if_pos hs] at hinit; simp at hinit
  rw [if_neg hs] at hinit
  simp only [Option.some.injEq] at hinit
  subst hinit
  simp only
  set padsize := (pagesize - s % pagesize) % pagesize with hpad
  set asz := s + padsize - 8 with hasz
  have hbound : 8 ≤ asz ∧ asz % 8 = 0 := by
    rw [hasz, hpad]
    unfold pagesize
    omega
  have hv4 : (writeW (writeW (writeW (writeW (fun _ => (0 : Int)) (4 + asz) 1) 4 asz)
      4 (readW (writeW (writeW (fun _ => (0 : Int)) (4 + asz) 1) 4 asz) 4 + 2))
      (4 + asz - 4) asz) 4 = asz + 2 := by
    simp only [writeW, readW]
    split_ifs <;> omega
  have hvend : (writeW (writeW (writeW (writeW (fun _ => (0 : Int)) (4 + asz) 1) 4 asz)
      4 (readW (writeW (writeW (fun _ => (0 : Int)) (4 + asz) 1) 4 asz) 4 + 2))
      (4 + asz - 4) asz) (4 + asz) = 1 := by
    simp only [writeW, readW]
    split_ifs <;> omega
  have hmsk : msk (asz + 2) = asz := by
    unfold msk
    omega
  have hdec : Decodes (writeW (writeW (writeW (writeW (fun _ => (0 : Int)) (4 + asz) 1) 4 asz)
      4 (readW (writeW (writeW (fun _ => (0 : Int)) (4 + asz) 1) 4 asz) 4 + 2))
      (4 + asz - 4) asz) 4 [(4, asz + 2)] := by
    rw [Decodes_cons_iff]
    refine ⟨rfl, hv4, by omega, ?_⟩
    rw [hmsk, Decodes_nil_iff]
    exact hvend
  refine ⟨?_, hdec, hvend⟩
  refine wf_intro _ [(4, asz + 2)] hbound.1 hbound.2 hdec ?_ ?_
  · refine blocksOk_of_mem _ ?_
    intro pv hpv
    simp at hpv
    subst hpv
    simp only [hmsk]
    omega
  · simp [sumSizes_cons, sumSizes_nil, hmsk]

/-! ### `bfree` preserves the invariant -/

theorem bfree_fail_guard (h : Heap) (ptr : Int)
    (hc : ptr = 0 ∨ ptr % 8 ≠ 0 ∨ ptr < 4 + hdrSize ∨ 4 + h.allocSize ≤ ptr) :
    bfree h ptr = (-1, h) := by
  unfold bfree
  rw [if_pos hc]

theorem bfree_fail_bit (h : Heap) (ptr : Int)
    (hc : ¬(ptr = 0 ∨ ptr % 8 ≠ 0 ∨ ptr < 4 + hdrSize ∨ 4 + h.allocSize ≤ ptr))
    (hb : readW h.mem (ptr - hdrSize) % 2 = 0) :
    bfree h ptr = (-1, h) := by
  unfold bfree
  rw [if_neg hc]
  simp only [hb, if_pos]

theorem bfree_succ_eq (h : Heap) (ptr : Int)
    (hc : ¬(ptr = 0 ∨ ptr % 8 ≠ 0 ∨ ptr < 4 + hdrSize ∨ 4 + h.allocSize ≤ ptr))
    (hb : ¬readW h.mem (ptr - hdrSize) % 2 = 0) :
    bfree h ptr = (0, { h with mem := bfreeMem h.mem (ptr - hdrSize) }) := by
  unfold bfree bfreeMem
  rw [if_neg hc]
  simp only [readW_writeW_same, msk_clrA, hb, if_neg, if_false]

/-- All stores of a successful `bfree` only clear status bits: the masked
size of every word is unchanged. -/
theorem bfreeMem_msk_pointwise (m : Int → Int) (blk : Int) :
    ∀ x, msk (bfreeMem m blk x) = msk (m x) := by
  intro x
  have inner : ∀ y, msk (writeW m blk (clrA (readW m blk)) y) = msk (m y) :=
    fun y => msk_writeW m blk _ y (msk_clrA _)
  unfold bfreeMem
  split
  · exact inner x
  · have houter := msk_writeW (writeW m blk (clrA (readW m blk)))
      (blk + msk (readW m blk))
      (clrP (readW (writeW m blk (clrA (readW m blk))) (blk + msk (readW m blk))))
      x (msk_clrP _)
    rw [houter]
    exact inner x

/-- A failing `bfree` returns `-1` and leaves the heap untouched. -/
theorem bfree_fail_frame (h : Heap) (ptr : Int)
    (hf : (bfree h ptr).1 = -1) : (bfree h ptr).2 = h := by
  by_cases hc : ptr = 0 ∨ ptr % 8 ≠ 0 ∨ ptr < 4 + hdrSize ∨ 4 + h.allocSize ≤ ptr
  · rw [bfree_fail_guard h ptr hc]
  by_cases hb : readW h.mem (ptr - hdrSize) % 2 = 0
  · rw [bfree_fail_bit h ptr hc hb]
  rw [bfree_succ_eq h ptr hc hb] at hf
  simp at hf

/-- The result status of `bfree` is either `0` or `-1`. -/
theorem bfree_status (h : Heap) (ptr : Int) :
    (bfree h ptr).1 = 0 ∨ (bfree h ptr).1 = -1 := by
  by_cases hc : ptr = 0 ∨ ptr % 8 ≠ 0 ∨ ptr < 4 + hdrSize ∨ 4 + h.allocSize ≤ ptr
  · rw [bfree_fail_guard h ptr hc]; right; rfl
  by_cases hb : readW h.mem (ptr - hdrSize) % 2 = 0
  · rw [bfree_fail_bit h ptr hc hb]; right; rfl
  rw [bfree_succ_eq h ptr hc hb]; left; rfl

/-- A successful `bfree` does not touch the end-mark word at
`4 + allocSize`; every store lands strictly below it or is blocked by
the `!= 1` guard. -/
theorem bfreeMem_stop (m : Int → Int) (blk stop : Int)
    (hblk : blk ≠ stop) (hstop : m stop = 1) :
    bfreeMem m blk stop = 1 := by
  have h1 : writeW m blk (clrA (readW m blk)) stop = 1 := by
    rw [writeW_apply, if_neg (fun hx => hblk hx.symm)]
    exact hstop
  unfold bfreeMem
  split
  · exact h1
  · rename_i hne
    rw [writeW_apply]
    split_ifs with hx
    · exfalso
      apply hne
      rw [readW, ← hx]
      exact h1
    · exact h1

theorem bfree_wf (h : Heap) (ptr : Int) (hwf : wf h = true) :
    wf (bfree h ptr).2 = true := by
  by_cases hc : ptr = 0 ∨ ptr % 8 ≠ 0 ∨ ptr < 4 + hdrSize ∨ 4 + h.allocSize ≤ ptr
  · rw [bfree_fail_guard h ptr hc]
    exact hwf
  by_cases hb : readW h.mem (ptr - hdrSize) % 2 = 0
  · rw [bfree_fail_bit h ptr hc hb]
    exact hwf
  rw [bfree_succ_eq h ptr hc hb]
  obtain ⟨L, hdec, hok, hsum, -⟩ := wf_decodes h hwf
  have hstop : h.mem (4 + h.allocSize) = 1 := by
    have hst := Decodes_stop h.mem L 4 hdec
    rw [hsum] at hst
    exact hst
  have hblkne : ptr - hdrSize ≠ 4 + h.allocSize := by
    push_neg at hc
    unfold hdrSize at hc ⊢
    omega
  have hstop2 : bfreeMem h.mem (ptr - hdrSize) (4 + h.allocSize) = 1 :=
    bfreeMem_stop h.mem _ _ hblkne hstop
  have hmskpt := bfreeMem_msk_pointwise h.mem (ptr - hdrSize)
  have hvals := Decodes_values h.mem L 4 hdec
  have hmsk2 : ∀ pv ∈ L, msk (bfreeMem h.mem (ptr - hdrSize) pv.1) = msk pv.2 := by
    intro pv hpv
    rw [hmskpt pv.1, hvals pv hpv]
  have hdec2 : Decodes (bfreeMem h.mem (ptr - hdrSize)) 4
      (L.map (fun pv => (pv.1, bfreeMem h.mem (ptr - hdrSize) pv.1))) := by
    refine Decodes_frame_msk h.mem _ L 4 hdec
      (fun pv hpv => (blocksOk_mem L hok pv hpv).1) hmsk2 ?_
    rw [hsum]
    exact hstop2
  refine wf_intro _ _ ?_ ?_ hdec2 ?_ ?_
  · exact (wf_elim h hwf).1
  · exact (wf_elim h hwf).2.1
  · exact blocksOk_map _ L hok hmsk2
  · rw [sumSizes_map_eq _ L hmsk2]
    exact hsum

/-! ### `balloc` preserves the invariant -/

theorem balloc_none_lt (h : Heap) (n : Int) (hn : n < 1) :
    balloc h n = (none, h) := by
  unfold balloc
  rw [if_pos hn]

theorem balloc_none_scan (h : Heap) (n : Int) (hn : ¬n < 1)
    (hscan : ballocScan h.mem (blockSizeOf n) (heapFuel h) 4 none = none) :
    balloc h n = (none, h) := by
  unfold balloc
  rw [if_neg hn]
  simp only [hscan]

theorem balloc_split (h : Heap) (n bf : Int) (hn : ¬n < 1)
    (hscan : ballocScan h.mem (blockSizeOf n) (heapFuel h) 4 none = some bf)
    (hrem : 2 * hdrSize + 8 ≤ msk (readW h.mem bf) - blockSizeOf n) :
    balloc h n = (some (bf + hdrSize),
      { h with mem := ballocMemSplit h.mem bf (blockSizeOf n) }) := by
  unfold balloc ballocMemSplit
  rw [if_neg hn]
  simp only [hscan]
  rw [if_pos hrem]

theorem balloc_full (h : Heap) (n bf : Int) (hn : ¬n < 1)
    (hscan : ballocScan h.mem (blockSizeOf n) (heapFuel h) 4 none = some bf)
    (hrem : ¬2 * hdrSize + 8 ≤ msk (readW h.mem bf) - blockSizeOf n) :
    balloc h n = (some (bf + hdrSize),
      { h with mem := ballocMemFull h.mem bf }) := by
  unfold balloc ballocMemFull
  rw [if_neg hn]
  simp only [hscan]
  rw [if_neg hrem]

theorem ballocMemSplit_at_bf (m : Int → Int) (bf bs : Int)
    (hbs : 0 < bs) (hlt : bs < msk (readW m bf)) :
    ballocMemSplit m bf bs bf = setA (bs + low2 (readW m bf)) := by
  unfold ballocMemSplit
  simp only [readW] at *
  simp only [ite_apply, writeW_apply]
  split_ifs <;> omega

theorem ballocMemSplit_at_newB (m : Int → Int) (bf bs : Int)
    (hbs : 0 < bs) (hlt : bs < msk (readW m bf)) :
    ballocMemSplit m bf bs (bf + bs) = msk (readW m bf) - bs + 2 := by
  unfold ballocMemSplit
  simp only [readW] at *
  simp only [ite_apply, writeW_apply]
  split_ifs <;> omega

theorem ballocMemSplit_at_other (m : Int → Int) (bf bs x : Int)
    (hx1 : x ≠ bf) (hx2 : x ≠ bf + bs) (hx3 : x ≠ bf + msk (readW m bf)) :
    ballocMemSplit m bf bs x = m x := by
  unfold ballocMemSplit
  simp only [readW] at *
  simp only [ite_apply, writeW_apply]
  split_ifs <;> omega

theorem ballocMemSplit_at_nxt_one (m : Int → Int) (bf bs : Int)
    (hbs : 0 < bs) (hlt : bs < msk (readW m bf))
    (hone : m (bf + msk (readW m bf)) = 1) :
    ballocMemSplit m bf bs (bf + msk (readW m bf)) = 1 := by
  unfold ballocMemSplit
  simp only [readW] at *
  simp only [ite_apply, writeW_apply]
  have harg : bf + bs + (msk (m bf) - bs) = bf + msk (m bf) := by ring
  rw [harg]
  split_ifs <;> omega

theorem ballocMemSplit_at_nxt_ne (m : Int → Int) (bf bs : Int)
    (hbs : 0 < bs) (hlt : bs < msk (readW m bf))
    (hone : m (bf + msk (readW m bf)) ≠ 1) :
    ballocMemSplit m bf bs (bf + msk (readW m bf)) =
      setP (m (bf + msk (readW m bf))) := by
  unfold ballocMemSplit
  simp only [readW] at *
  simp only [ite_apply, writeW_apply]
  have harg : bf + bs + (msk (m bf) - bs) = bf + msk (m bf) := by ring
  rw [harg]
  split_ifs <;> omega

theorem ballocMemFull_msk_pointwise (m : Int → Int) (bf : Int) :
    ∀ x, msk (ballocMemFull m bf x) = msk (m x) := by
  intro x
  have inner : ∀ y, msk (writeW m bf (setA (readW m bf)) y) = msk (m y) :=
    fun y => msk_writeW m bf _ y (msk_setA _)
  unfold ballocMemFull
  simp only [readW_writeW_same, msk_setA]
  split
  · exact inner x
  · have houter := msk_writeW (writeW m bf (setA (readW m bf)))
      (bf + msk (readW m bf))
      (setP (readW (writeW m bf (setA (readW m bf))) (bf + msk (readW m bf))))
      x (msk_setP _)
    rw [houter]
    exact inner x

theorem ballocMemFull_stop (m : Int → Int) (bf stop : Int)
    (hbf : bf ≠ stop) (hstop : m stop = 1) :
    ballocMemFull m bf stop = 1 := by
  have h1 : writeW m bf (setA (readW m bf)) stop = 1 := by
    rw [writeW_apply, if_neg (fun hx => hbf hx.symm)]
    exact hstop
  unfold ballocMemFull
  simp only [readW_writeW_same, msk_setA]
  split
  · exact h1
  · rename_i hne
    rw [writeW_apply]
    split_ifs with hx
    · exfalso
      apply hne
      rw [readW, ← hx]
      exact h1
    · exact h1

theorem msk_setA_add_low2 (bs v : Int) (h : bs % 8 = 0) :
    msk (setA (bs + low2 v)) = bs := by
  unfold setA msk low2
  omega

theorem msk_add_two (r : Int) (h : r % 4 = 0) : msk (r + 2) = r := by
  unfold msk
  omega

theorem ballocScan_firstMin (h : Heap) (L : List (Int × Int)) (bs : Int)
    (hdec : Decodes h.mem 4 L) (hok : blocksOk L = true)
    (hsum : sumSizes L = h.allocSize) :
    ballocScan h.mem bs (heapFuel h) 4 none =
      (firstMin (fits bs L)).map (fun b => b.1) := by
  rw [ballocScan_eq_pickBest h.mem bs L 4 (heapFuel h) none none hdec
    (length_lt_fuel L h.allocSize hok hsum) rfl (by simp)]
  rw [pickBest_eq]
  rfl

theorem balloc_scan_hit (h : Heap) (L : List (Int × Int)) (bs bf : Int)
    (hdec : Decodes h.mem 4 L) (hok : blocksOk L = true)
    (hsum : sumSizes L = h.allocSize)
    (hscan : ballocScan h.mem bs (heapFuel h) 4 none = some bf) :
    ∃ v, firstMin (fits bs L) = some (bf, v) ∧ readW h.mem bf = v ∧
      v % 2 = 0 ∧ bs ≤ msk v ∧ (bf, v) ∈ L := by
  rw [ballocScan_firstMin h L bs hdec hok hsum] at hscan
  cases hfm : firstMin (fits bs L) with
  | none => rw [hfm] at hscan; simp at hscan
  | some pv =>
    rw [hfm] at hscan
    simp at hscan
    have hmem := firstMin_mem _ _ hfm
    rw [mem_fits] at hmem
    have hpv : pv = (bf, pv.2) := by
      rw [← hscan]
    have hmem2 : (bf, pv.2) ∈ L := by
      rw [← hpv]
      exact hmem.1
    have hval : readW h.mem bf = pv.2 := by
      have hv0 := Decodes_values h.mem L 4 hdec pv hmem.1
      rw [hpv] at hv0
      exact hv0
    exact ⟨pv.2, congrArg some hpv, hval, hmem.2.1, hmem.2.2, hmem2⟩

/-- `balloc` returns the payload address `bestFit + 4` whenever the scan
finds a best fit. -/
theorem balloc_some (h : Heap) (n bf : Int) (hn : ¬n < 1)
    (hscan : ballocScan h.mem (blockSizeOf n) (heapFuel h) 4 none = some bf) :
    (balloc h n).1 = some (bf + hdrSize) := by
  by_cases hrem : 2 * hdrSize + 8 ≤ msk (readW h.mem bf) - blockSizeOf n
  · rw [balloc_split h n bf hn hscan hrem]
  · rw [balloc_full h n bf hn hscan hrem]

theorem balloc_wf (h : Heap) (n : Int) (hwf : wf h = true) :
    wf (balloc h n).2 = true := by
  by_cases hn : n < 1
  · rw [balloc_none_lt h n hn]
    exact hwf
  obtain ⟨L, hdec, hok, hsum, -⟩ := wf_decodes h hwf
  obtain ⟨h8A, hmodA, -⟩ := wf_elim h hwf
  cases hscan : ballocScan h.mem (blockSizeOf n) (heapFuel h) 4 none with
  | none =>
    rw [balloc_none_scan h n hn hscan]
    exact hwf
  | some bf =>
    obtain ⟨v, hfm, hv, hfree, hge, hmemL⟩ :=
      balloc_scan_hit h L (blockSizeOf n) bf hdec hok hsum hscan
    have hbs8 : blockSizeOf n % 8 = 0 := blockSizeOf_mod8 n
    have hbs_ge : 8 ≤ blockSizeOf n := blockSizeOf_ge n (by omega)
    have hmv := blocksOk_mem _ hok (bf, v) hmemL
    simp only at hmv
    have hok8 : ∀ pv ∈ L, 8 ≤ msk pv.2 := fun pv hpv => (blocksOk_mem _ hok pv hpv).1
    have hpw := Decodes_pairwise h.mem _ 4 hdec hok8
    obtain ⟨L1, L2, hL⟩ := List.append_of_mem hmemL
    subst hL
    have hsplit1 := Decodes_split h.mem L1 ((bf, v) :: L2) 4 hdec
    rw [Decodes_cons_iff] at hsplit1
    obtain ⟨hbfpos, -, hvne, hdecL2⟩ := hsplit1
    rw [← hbfpos] at hdecL2
    have hL1lt : ∀ pv ∈ L1, pv.1 < bf := by
      intro pv hpv
      have hlt := (List.pairwise_append.mp hpw).2.2 pv hpv (bf, v) (by simp)
      simpa using hlt
    have hL1vals : ∀ pv ∈ L1, h.mem pv.1 = pv.2 := by
      intro pv hpv
      exact Decodes_values h.mem _ 4 hdec pv (by simp [hpv])
    have hsumL2 : 0 ≤ sumSizes L2 := by
      refine sumSizes_nonneg L2 (blocksOk_of_mem _ ?_)
      intro pv hpv
      exact blocksOk_mem _ hok pv (by simp [hpv])
    have hsumL1 : 0 ≤ sumSizes L1 := by
      refine sumSizes_nonneg L1 (blocksOk_of_mem _ ?_)
      intro pv hpv
      exact blocksOk_mem _ hok pv (by simp [hpv])
    have hsum2 : sumSizes L1 + msk v + sumSizes L2 = h.allocSize := by
      rw [← hsum, sumSizes_append, sumSizes_cons]
      ring
    have hstop1 : h.mem (4 + h.allocSize) = 1 := by
      have hst := Decodes_stop h.mem _ 4 hdec
      rw [hsum] at hst
      exact hst
    by_cases hrem : 2 * hdrSize + 8 ≤ msk (readW h.mem bf) - blockSizeOf n
    · -- split branch
      rw [balloc_split h n bf hn hscan hrem]
      dsimp only
      rw [hv] at hrem
      unfold hdrSize at hrem
      have hbs_lt : blockSizeOf n < msk (readW h.mem bf) := by rw [hv]; omega
      have hbs_pos : (0 : Int) < blockSizeOf n := by omega
      have hm'bf : ballocMemSplit h.mem bf (blockSizeOf n) bf = setA (blockSizeOf n + low2 v) := by
        rw [ballocMemSplit_at_bf h.mem bf _ hbs_pos hbs_lt, hv]
      have hm'nb : ballocMemSplit h.mem bf (blockSizeOf n) (bf + blockSizeOf n) =
          msk v - blockSizeOf n + 2 := by
        rw [ballocMemSplit_at_newB h.mem bf _ hbs_pos hbs_lt, hv]
      have hmskbf : msk (setA (blockSizeOf n + low2 v)) = blockSizeOf n :=
        msk_setA_add_low2 _ _ hbs8
      have hmsknb : msk (msk v - blockSizeOf n + 2) = msk v - blockSizeOf n := by
        refine msk_add_two _ ?_
        have := msk_mod4 v
        omega
      cases L2 with
      | nil =>
        rw [Decodes_nil_iff] at hdecL2
        have hm'nxt : ballocMemSplit h.mem bf (blockSizeOf n) (bf + msk v) = 1 := by
          have := ballocMemSplit_at_nxt_one h.mem bf (blockSizeOf n) hbs_pos hbs_lt
            (by rw [hv]; exact hdecL2)
          rw [hv] at this
          exact this
        have hdecY : Decodes (ballocMemSplit h.mem bf (blockSizeOf n)) bf
            [(bf, setA (blockSizeOf n + low2 v)),
             (bf + blockSizeOf n, msk v - blockSizeOf n + 2)] := by
          rw [Decodes_cons_iff]
          refine ⟨rfl, hm'bf, ne_one_of_msk_ge _ (by omega), ?_⟩
          rw [hmskbf, Decodes_cons_iff]
          refine ⟨rfl, hm'nb, ne_one_of_msk_ge _ (by omega), ?_⟩
          rw [hmsknb, Decodes_nil_iff]
          rw [show bf + blockSizeOf n + (msk v - blockSizeOf n) = bf + msk v by ring]
          exact hm'nxt
        have hdecAll : Decodes (ballocMemSplit h.mem bf (blockSizeOf n)) 4
            (L1 ++ [(bf, setA (blockSizeOf n + low2 v)),
                    (bf + blockSizeOf n, msk v - blockSizeOf n + 2)]) := by
          refine Decodes_replace h.mem _ L1 ((bf, v) :: []) _ 4 hdec ?_ ?_
          · intro pv hpv
            rw [ballocMemSplit_at_other h.mem bf _ pv.1
              (by have := hL1lt pv hpv; omega)
              (by have := hL1lt pv hpv; omega)
              (by have := hL1lt pv hpv; rw [hv]; omega)]
            exact hL1vals pv hpv
          · rw [← hbfpos]
            exact hdecY
        refine wf_intro _ _ h8A hmodA hdecAll ?_ ?_
        · refine blocksOk_of_mem _ ?_
          intro pv hpv
          rw [List.mem_append] at hpv
          rcases hpv with hpv | hpv
          · exact blocksOk_mem _ hok pv (by simp [hpv])
          · simp at hpv
            rcases hpv with hpv | hpv <;> subst hpv <;> simp only [hmskbf, hmsknb] <;>
              constructor <;> omega
        · show sumSizes _ = h.allocSize
          rw [sumSizes_append, sumSizes_cons, sumSizes_cons, sumSizes_nil]
          rw [hmskbf, hmsknb]
          rw [sumSizes_nil] at hsum2
          omega
      | cons qw L3 =>
        obtain ⟨q0, w0⟩ := qw
        rw [Decodes_cons_iff] at hdecL2
        obtain ⟨hq0, hw0, hw0ne, hdecL3⟩ := hdecL2
        rw [← hq0] at hdecL3
        have hmw0 := blocksOk_mem _ hok (q0, w0) (by simp)
        simp only at hmw0
        have hm'nxt : ballocMemSplit h.mem bf (blockSizeOf n) (bf + msk v) = setP w0 := by
          have := ballocMemSplit_at_nxt_ne h.mem bf (blockSizeOf n) hbs_pos hbs_lt
            (by rw [hv, hw0]; exact hw0ne)
          rw [hv, hw0] at this
          exact this
        have hL3pos : ∀ pv ∈ L3, q0 + msk w0 ≤ pv.1 := by
          refine Decodes_pos_le h.mem L3 (q0 + msk w0) hdecL3 ?_
          intro pv hpv
          exact (blocksOk_mem _ hok pv (by simp [hpv])).1
        have hL3ok : blocksOk L3 = true := by
          refine blocksOk_of_mem _ ?_
          intro pv hpv
          exact blocksOk_mem _ hok pv (by simp [hpv])
        have hsumL3 : 0 ≤ sumSizes L3 := sumSizes_nonneg L3 hL3ok
        have hother : ∀ x : Int, q0 + msk w0 ≤ x →
            ballocMemSplit h.mem bf (blockSizeOf n) x = h.mem x := by
          intro x hx
          rw [hq0] at hx
          refine ballocMemSplit_at_other h.mem bf _ x ?_ ?_ (by rw [hv]; omega)
          · omega
          · omega
        have hdecL3m : Decodes (ballocMemSplit h.mem bf (blockSizeOf n)) (q0 + msk w0) L3 := by
          refine Decodes_frame_values h.mem _ L3 (q0 + msk w0) hdecL3 ?_ ?_
          · intro pv hpv
            exact hother pv.1 (hL3pos pv hpv)
          · refine hother _ ?_
            omega
        have hdecY : Decodes (ballocMemSplit h.mem bf (blockSizeOf n)) bf
            ((bf, setA (blockSizeOf n + low2 v)) ::
             (bf + blockSizeOf n, msk v - blockSizeOf n + 2) ::
             (q0, setP w0) :: L3) := by
          rw [Decodes_cons_iff]
          refine ⟨rfl, hm'bf, ne_one_of_msk_ge _ (by omega), ?_⟩
          rw [hmskbf, Decodes_cons_iff]
          refine ⟨rfl, hm'nb, ne_one_of_msk_ge _ (by omega), ?_⟩
          rw [hmsknb, Decodes_cons_iff]
          have hq0eq : q0 = bf + blockSizeOf n + (msk v - blockSizeOf n) := by
            rw [hq0]; ring
          refine ⟨hq0eq, ?_, ne_one_of_msk_ge _ (by rw [msk_setP]; omega), ?_⟩
          · rw [← hq0eq, hq0]
            exact hm'nxt
          · rw [← hq0eq, msk_setP]
            exact hdecL3m
        have hdecAll : Decodes (ballocMemSplit h.mem bf (blockSizeOf n)) 4
            (L1 ++ ((bf, setA (blockSizeOf n + low2 v)) ::
             (bf + blockSizeOf n, msk v - blockSizeOf n + 2) ::
             (q0, setP w0) :: L3)) := by
          refine Decodes_replace h.mem _ L1 ((bf, v) :: (q0, w0) :: L3) _ 4 hdec ?_ ?_
          · intro pv hpv
            rw [ballocMemSplit_at_other h.mem bf _ pv.1
              (by have := hL1lt pv hpv; omega)
              (by have := hL1lt pv hpv; omega)
              (by have := hL1lt pv hpv; rw [hv]; omega)]
            exact hL1vals pv hpv
          · rw [← hbfpos]
            exact hdecY
        refine wf_intro _ _ h8A hmodA hdecAll ?_ ?_
        · refine blocksOk_of_mem _ ?_
          intro pv hpv
          rw [List.mem_append] at hpv
          rcases hpv with hpv | hpv
          · exact blocksOk_mem _ hok pv (by simp [hpv])
          rcases List.mem_cons.mp hpv with hpv | hpv
          · subst hpv; simp only [hmskbf]; constructor <;> omega
          rcases List.mem_cons.mp hpv with hpv | hpv
          · subst hpv; simp only [hmsknb]; constructor <;> omega
          rcases List.mem_cons.mp hpv with hpv | hpv
          · subst hpv; simp only [msk_setP]; constructor <;> omega
          · exact blocksOk_mem _ hok pv (by simp [hpv])
        · show sumSizes _ = h.allocSize
          rw [sumSizes_append, sumSizes_cons, sumSizes_cons, sumSizes_cons]
          rw [hmskbf, hmsknb, msk_setP]
          rw [sumSizes_cons] at hsum2
          omega
    · -- no-split branch: only status bits change
      rw [balloc_full h n bf hn hscan hrem]
      dsimp only
      have hbfne : bf ≠ 4 + h.allocSize := by
        have h8v : 8 ≤ msk v := hmv.1
        omega
      have hmskpt := ballocMemFull_msk_pointwise h.mem bf
      have hvals := Decodes_values h.mem _ 4 hdec
      have hmsk2 : ∀ pv ∈ L1 ++ (bf, v) :: L2,
          msk (ballocMemFull h.mem bf pv.1) = msk pv.2 := by
        intro pv hpv
        rw [hmskpt pv.1, hvals pv hpv]
      have hdec2 : Decodes (ballocMemFull h.mem bf) 4
          ((L1 ++ (bf, v) :: L2).map (fun pv => (pv.1, ballocMemFull h.mem bf pv.1))) := by
        refine Decodes_frame_msk h.mem _ _ 4 hdec hok8 hmsk2 ?_
        rw [hsum]
        exact ballocMemFull_stop h.mem bf _ hbfne hstop1
      refine wf_intro _ _ h8A hmodA hdec2 ?_ ?_
      · exact blocksOk_map _ _ hok hmsk2
      · rw [sumSizes_map_eq _ _ hmsk2]
        exact hsum

/-! ### `coalesce` -/

theorem coalInner_zero (mem : Int → Int) (cur : Int) :
    coalInner mem 0 cur = mem := rfl

theorem coalInner_succ (mem : Int → Int) (fuel : Nat) (cur : Int) :
    coalInner mem (fuel + 1) cur =
      if readW mem (cur + msk (readW mem cur)) ≠ 1 ∧
          readW mem (cur + msk (readW mem cur)) % 2 = 0 then
        coalInner (writeW mem cur
          (readW mem cur + msk (readW mem (cur + msk (readW mem cur))))) fuel cur
      else mem := rfl

theorem coalOuter_zero (mem : Int → Int) (cur : Int) :
    coalOuter mem 0 cur = mem := rfl

theorem coalOuter_succ (mem : Int → Int) (fuel : Nat) (cur : Int) :
    coalOuter mem (fuel + 1) cur =
      if readW mem cur = 1 then mem
      else if readW mem cur % 2 = 0 then
        coalOuter
          (if readW (coalInner mem fuel cur)
              (cur + msk (readW (coalInner mem fuel cur) cur)) = 1 then
            coalInner mem fuel cur
          else
            writeW (coalInner mem fuel cur)
              (cur + msk (readW (coalInner mem fuel cur) cur))
              (setP (readW (coalInner mem fuel cur)
                (cur + msk (readW (coalInner mem fuel cur) cur)))))
          fuel
          (cur + msk (readW
            (if readW (coalInner mem fuel cur)
                (cur + msk (readW (coalInner mem fuel cur) cur)) = 1 then
              coalInner mem fuel cur
            else
              writeW (coalInner mem fuel cur)
                (cur + msk (readW (coalInner mem fuel cur) cur))
                (setP (readW (coalInner mem fuel cur)
                  (cur + msk (readW (coalInner mem fuel cur) cur)))))
            cur))
      else coalOuter mem fuel (cur + msk (readW mem cur)) := rfl

theorem even_ne_one (x : Int) (h : x % 2 = 0) : x ≠ 1 := by omega

/-- Simulation of the inner merge loop of `coalesce`: starting at a block
`(pos, v)` it accumulates exactly `absorb v rest` into the header at
`pos` and leaves every other word unchanged. -/
theorem coalInner_sim :
    ∀ (rest : List (Int × Int)) (mem : Int → Int) (pos v : Int) (Fi : Nat),
      Decodes mem pos ((pos, v) :: rest) →
      blocksOk ((pos, v) :: rest) = true →
      v % 2 = 0 →
      rest.length + 1 ≤ Fi →
      coalInner mem Fi pos = writeW mem pos (absorb v rest).1 ∧
        Decodes (writeW mem pos (absorb v rest).1) pos
          ((pos, (absorb v rest).1) :: (absorb v rest).2) := by
  intro rest
  induction rest with
  | nil =>
    intro mem pos v Fi hdec hok hfree hFi
    obtain ⟨Fi', rfl⟩ : ∃ F, Fi = F + 1 := ⟨Fi - 1, by omega⟩
    rw [Decodes_cons_iff] at hdec
    obtain ⟨-, hv, hvne, hnil⟩ := hdec
    rw [Decodes_nil_iff] at hnil
    have hstep : coalInner mem (Fi' + 1) pos = mem := by
      rw [coalInner_succ]
      rw [show readW mem pos = v from hv]
      rw [show readW mem (pos + msk v) = 1 from hnil]
      simp
    have hself : writeW mem pos (absorb v []).1 = mem := by
      rw [absorb_nil]
      rw [show (v, ([] : List (Int × Int))).1 = v from rfl]
      rw [show v = readW mem pos from hv.symm]
      exact writeW_self mem pos
    constructor
    · rw [hstep, hself]
    · rw [hself, absorb_nil]
      rw [Decodes_cons_iff]
      exact ⟨rfl, hv, hvne, by rw [Decodes_nil_iff]; exact hnil⟩
  | cons qw rest2 ih =>
    intro mem pos v Fi hdec hok hfree hFi
    obtain ⟨q, w⟩ := qw
    obtain ⟨Fi', rfl⟩ : ∃ F, Fi = F + 1 := ⟨Fi - 1, by omega⟩
    rw [Decodes_cons_iff] at hdec
    obtain ⟨-, hv, hvne, hdec2⟩ := hdec
    have hq : Decodes mem (pos + msk v) ((pos + msk v, w) :: rest2) := by
      rw [Decodes_cons_iff] at hdec2 ⊢
      obtain ⟨hq0, h1, h2, h3⟩ := hdec2
      exact ⟨rfl, h1, h2, h3⟩
    rw [Decodes_cons_iff] at hq
    obtain ⟨-, hw, hwne, hdec3⟩ := hq
    have hqpos : q = pos + msk v := by
      rw [Decodes_cons_iff] at hdec2
      exact hdec2.1
    have hmskv := blocksOk_mem _ hok (pos, v) (by simp)
    have hmskw := blocksOk_mem _ hok (q, w) (by simp)
    simp only at hmskv hmskw
    by_cases hwf2 : w % 2 = 0
    · -- next block is free: merge it and recurse
      have hcond : readW mem (pos + msk (readW mem pos)) ≠ 1 ∧
          readW mem (pos + msk (readW mem pos)) % 2 = 0 := by
        rw [show readW mem pos = v from hv,
          show readW mem (pos + msk v) = w from hw]
        exact ⟨hwne, hwf2⟩
      have hstep : coalInner mem (Fi' + 1) pos =
          coalInner (writeW mem pos (v + msk w)) Fi' pos := by
        rw [coalInner_succ, if_pos hcond]
        rw [show readW mem pos = v from hv,
          show readW mem (pos + msk v) = w from hw]
      have hdecm : Decodes (writeW mem pos (v + msk w)) pos
          ((pos, v + msk w) :: rest2) := by
        rw [Decodes_cons_iff]
        refine ⟨rfl, readW_writeW_same mem pos _, ?_, ?_⟩
        · refine even_ne_one _ ?_
          have := msk_even w
          omega
        · rw [msk_add_of_mod4 _ _ (msk_mod4 w), show pos + (msk v + msk w) =
            pos + msk v + msk w by ring]
          refine Decodes_frame_values mem _ rest2 (pos + msk v + msk w) hdec3 ?_ ?_
          · intro pv hpv
            have hge := Decodes_pos_le mem rest2 (pos + msk v + msk w) hdec3
              (fun x hx => (blocksOk_mem _ hok x (by simp [hx])).1) pv hpv
            rw [writeW_apply, if_neg (by omega)]
          · rw [writeW_apply, if_neg ?_]
            have hs := sumSizes_nonneg rest2 (blocksOk_of_mem _
              (fun x hx => blocksOk_mem _ hok x (by simp [hx])))
            omega
      have hokm : blocksOk ((pos, v + msk w) :: rest2) = true := by
        refine blocksOk_of_mem _ ?_
        intro pv hpv
        rcases List.mem_cons.mp hpv with hh | hh
        · subst hh
          rw [show msk ((pos, v + msk w)).2 = msk v + msk w from
            msk_add_of_mod4 _ _ (msk_mod4 w)]
          constructor <;> omega
        · exact blocksOk_mem _ hok pv (by simp [hh])
      have hparm : (v + msk w) % 2 = 0 := by
        have := msk_even w
        omega
      have hmerge := ih (writeW mem pos (v + msk w)) pos (v + msk w) Fi'
        hdecm hokm hparm (by simp at hFi ⊢; omega)
      rw [absorb_cons_free _ _ _ _ hwf2]
      rw [hstep, hmerge.1, writeW_writeW_same]
      refine ⟨rfl, ?_⟩
      have hd := hmerge.2
      rw [writeW_writeW_same] at hd
      exact hd
    · -- next block is allocated: the loop stops
      have hcond : ¬(readW mem (pos + msk (readW mem pos)) ≠ 1 ∧
          readW mem (pos + msk (readW mem pos)) % 2 = 0) := by
        rw [show readW mem pos = v from hv,
          show readW mem (pos + msk v) = w from hw]
        tauto
      have hstep : coalInner mem (Fi' + 1) pos = mem := by
        rw [coalInner_succ, if_neg hcond]
      rw [absorb_cons_alloc _ _ _ _ hwf2]
      have hself : writeW mem pos v = mem := by
        rw [show v = readW mem pos from hv.symm]
        exact writeW_self mem pos
      constructor
      · rw [hstep]
        exact hself.symm
      · rw [hself, Decodes_cons_iff]
        refine ⟨rfl, hv, hvne, ?_⟩
        rw [Decodes_cons_iff]
        exact ⟨hqpos, hw, hwne, hdec3⟩

/-- Simulation of one full pass of `coalesce`: starting from a decoded
block list `L`, the outer loop rewrites memory exactly to
`overwrite mem (coalSpec L)`, and the result decodes to `coalSpec L`. -/
theorem coalOuter_sim :
    ∀ (k : Nat) (L : List (Int × Int)) (mem : Int → Int) (pos : Int) (F : Nat),
      L.length ≤ k →
      Decodes mem pos L → blocksOk L = true → L.length + 1 ≤ F →
      coalOuter mem F pos = overwrite mem (coalSpec L) ∧
        Decodes (overwrite mem (coalSpec L)) pos (coalSpec L) := by
  intro k
  induction k with
  | zero =>
    intro L mem pos F hk hdec hok hF
    have hL : L = [] := by
      cases L with
      | nil => rfl
      | cons a b => simp at hk
    subst hL
    obtain ⟨F', rfl⟩ : ∃ F0, F = F0 + 1 := ⟨F - 1, by omega⟩
    rw [Decodes_nil_iff] at hdec
    rw [coalSpec_nil, overwrite_nil]
    constructor
    · rw [coalOuter_succ, show readW mem pos = mem pos from rfl, hdec]
      simp
    · rw [Decodes_nil_iff]
      exact hdec
  | succ k ih =>
    intro L mem pos F hk hdec hok hF
    cases L with
    | nil =>
      obtain ⟨F', rfl⟩ : ∃ F0, F = F0 + 1 := ⟨F - 1, by omega⟩
      rw [Decodes_nil_iff] at hdec
      rw [coalSpec_nil, overwrite_nil]
      constructor
      · rw [coalOuter_succ, show readW mem pos = mem pos from rfl, hdec]
        simp
      · rw [Decodes_nil_iff]
        exact hdec
    | cons pv rest =>
      obtain ⟨p, v⟩ := pv
      obtain ⟨F', rfl⟩ : ∃ F0, F = F0 + 1 := ⟨F - 1, by omega⟩
      rw [Decodes_cons_iff] at hdec
      obtain ⟨hp, hv, hvne, hdrest⟩ := hdec
      subst hp
      have hmskv := blocksOk_mem _ hok (p, v) (by simp)
      simp only at hmskv
      have hok8L : ∀ pv ∈ (p, v) :: rest, 8 ≤ msk pv.2 :=
        fun pv hpv => (blocksOk_mem _ hok pv hpv).1
      have hokrest : blocksOk rest = true :=
        blocksOk_of_mem _ (fun x hx => blocksOk_mem _ hok x (by simp [hx]))
      by_cases hfree : v % 2 = 0
      · -- free block: inner merge, previous-allocated store, advance
        rcases habs : absorb v rest with ⟨mv, rest2⟩
        have hdecL : Decodes mem p ((p, v) :: rest) := by
          rw [Decodes_cons_iff]
          exact ⟨rfl, hv, hvne, hdrest⟩
        have hinner := coalInner_sim rest mem p v F' hdecL hok hfree
          (by simp at hF ⊢; omega)
        rw [habs] at hinner
        simp only at hinner
        obtain ⟨hm2eq, hd2⟩ := hinner
        have hmv_par : mv % 2 = 0 := by
          have hpar := absorb_parity rest v
          rw [habs] at hpar
          simp only at hpar
          omega
        have hmskmv : msk v ≤ msk mv ∧ msk mv % 8 = msk v % 8 := by
          have hm := absorb_msk rest v (fun x hx => blocksOk_mem _ hok x (by simp [hx]))
          rw [habs] at hm
          simpa using hm
        have hsuffix : rest2.IsSuffix rest := by
          have hs := absorb_suffix rest v
          rw [habs] at hs
          exact hs
        rw [coalOuter_succ]
        rw [show readW mem p = v from hv, if_neg hvne, if_pos hfree, hm2eq]
        rw [show readW (writeW mem p mv) p = mv from readW_writeW_same mem p mv]
        cases rest2 with
        | nil =>
          have hstop2 : writeW mem p mv (p + msk mv) = 1 := by
            have hst := Decodes_stop _ _ p hd2
            rw [sumSizes_cons, sumSizes_nil] at hst
            rw [show p + msk mv = p + (msk mv + 0) by ring]
            exact hst
          rw [coalSpec_cons_free_last p v mv rest hfree habs]
          rw [if_pos (show readW (writeW mem p mv) (p + msk mv) = 1 from hstop2)]
          rw [show readW (writeW mem p mv) p = mv from readW_writeW_same mem p mv]
          have hofin : overwrite mem [(p, mv)] = writeW mem p mv := by
            rw [overwrite_cons, overwrite_nil]
          have hrec := ih [] (writeW mem p mv) (p + msk mv) F' (by simp)
            (by rw [Decodes_nil_iff]; exact hstop2)
            (by simp [blocksOk]) (by simp at hF ⊢; omega)
          rw [coalSpec_nil, overwrite_nil] at hrec
          rw [hofin]
          exact ⟨hrec.1, hd2⟩
        | cons q'w' rest3 =>
          obtain ⟨q', w'⟩ := q'w'
          have hd2t : Decodes (writeW mem p mv) (p + msk mv) ((q', w') :: rest3) := by
            rw [Decodes_cons_iff] at hd2
            exact hd2.2.2.2
          rw [Decodes_cons_iff] at hd2t
          obtain ⟨hq', hw', hw'ne, hd3⟩ := hd2t
          subst hq'
          have hw'v : writeW mem p mv (p + msk mv) = w' := hw'
          have hw'odd : w' % 2 ≠ 0 := absorb_stop rest v mv _ w' rest3 habs
          have hw'mem : (p + msk mv, w') ∈ rest :=
            hsuffix.subset (List.mem_cons_self _ _)
          have hmskw' := blocksOk_mem _ hok (p + msk mv, w') (by simp [hw'mem])
          simp only at hmskw'
          have hok3 : ∀ x ∈ rest3, 8 ≤ msk x.2 ∧ msk x.2 % 8 = 0 := by
            intro x hx
            refine blocksOk_mem _ hok x ?_
            have hxr : x ∈ rest := hsuffix.subset (List.mem_cons.mpr (Or.inr hx))
            simp [hxr]
          have hok3b : blocksOk rest3 = true := blocksOk_of_mem _ hok3
          have h3pos : ∀ x ∈ rest3, p + msk mv + msk w' ≤ x.1 :=
            Decodes_pos_le _ rest3 _ hd3 (fun x hx => (hok3 x hx).1)
          have h3sum : 0 ≤ sumSizes rest3 := sumSizes_nonneg rest3 hok3b
          -- the previous-allocated store at the follower
          rw [if_neg (show ¬readW (writeW mem p mv) (p + msk mv) = 1 by
            rw [show readW (writeW mem p mv) (p + msk mv) = w' from hw'v]; exact hw'ne)]
          rw [show readW (writeW mem p mv) (p + msk mv) = w' from hw'v]
          rw [show readW (writeW (writeW mem p mv) (p + msk mv) (setP w')) p =
            mv by rw [readW, writeW_apply, if_neg (by omega), writeW_apply, if_pos rfl]]
          -- decoded state after both stores
          have hd4 : Decodes (writeW (writeW mem p mv) (p + msk mv) (setP w'))
              (p + msk mv) ((p + msk mv, setP w') :: rest3) := by
            rw [Decodes_cons_iff]
            refine ⟨rfl, readW_writeW_same _ _ _, ne_one_of_msk_ge _ (by
              rw [msk_setP]; omega), ?_⟩
            rw [msk_setP]
            refine Decodes_frame_values (writeW mem p mv) _ rest3 _ hd3 ?_ ?_
            · intro x hx
              rw [writeW_apply, if_neg (by have := h3pos x hx; omega)]
            · rw [writeW_apply, if_neg (by omega)]
          have hok4 : blocksOk ((p + msk mv, setP w') :: rest3) = true := by
            refine blocksOk_of_mem _ ?_
            intro x hx
            rcases List.mem_cons.mp hx with hh | hh
            · subst hh
              simp only [msk_setP]
              exact hmskw'
            · exact hok3 x hh
          have hrec := ih ((p + msk mv, setP w') :: rest3)
            (writeW (writeW mem p mv) (p + msk mv) (setP w')) (p + msk mv) F'
            (by
              have hsl := hsuffix.length_le
              simp at hk hsl ⊢
              omega)
            hd4 hok4
            (by
              have hsl := hsuffix.length_le
              simp at hF hsl ⊢
              omega)
          have hCS' : coalSpec ((p + msk mv, setP w') :: rest3) =
              (p + msk mv, setP w') :: coalSpec rest3 := by
            refine coalSpec_cons_alloc _ _ _ ?_
            rw [setP_parity]
            exact hw'odd
          rw [hCS'] at hrec
          rw [coalSpec_cons_free_mid p v mv (p + msk mv) w' rest rest3 hfree habs]
          -- position disjointness for the overwrite algebra
          have hCS2pos : ∀ x ∈ coalSpec rest3, p + msk mv + msk w' ≤ x.1 := by
            intro x hx
            obtain ⟨qv, hq1, hq2⟩ := coalSpec_pos_subset rest3 x hx
            rw [← hq2]
            exact h3pos qv hq1
          have hne1 : ∀ x ∈ coalSpec rest3, x.1 ≠ p + msk mv := by
            intro x hx
            have := hCS2pos x hx
            omega
          have hne2 : ∀ x ∈ coalSpec rest3, x.1 ≠ p := by
            intro x hx
            have := hCS2pos x hx
            omega
          -- rewrite the final memory into overwrite form
          have hmemeq : overwrite (writeW (writeW mem p mv) (p + msk mv) (setP w'))
              ((p + msk mv, setP w') :: coalSpec rest3) =
              overwrite mem ((p, mv) :: (p + msk mv, setP w') :: coalSpec rest3) := by
            rw [overwrite_cons, overwrite_cons, overwrite_cons]
            rw [overwrite_writeW_comm _ _ _ _ hne1, overwrite_writeW_comm _ _ _ _ hne2]
            rw [writeW_writeW_same]
            rw [writeW_comm _ _ _ _ _ (by omega : p + msk mv ≠ p)]
          constructor
          · rw [hrec.1, hmemeq]
          · have hd5 := hrec.2
            rw [hmemeq] at hd5
            rw [Decodes_cons_iff]
            refine ⟨rfl, ?_, ne_one_of_msk_ge _ (by omega), hd5⟩
            rw [overwrite_cons, writeW_apply, if_pos rfl]
      · -- allocated block: skip it
        rw [coalOuter_succ]
        rw [show readW mem p = v from hv, if_neg hvne, if_neg hfree]
        have hrec := ih rest mem (p + msk v) F' (by simp at hk ⊢; omega)
          hdrest hokrest (by simp at hF ⊢; omega)
        rw [coalSpec_cons_alloc p v rest hfree]
        have hCSpos : ∀ x ∈ coalSpec rest, p + msk v ≤ x.1 := by
          intro x hx
          obtain ⟨qv, hq1, hq2⟩ := coalSpec_pos_subset rest x hx
          rw [← hq2]
          exact Decodes_pos_le mem rest (p + msk v) hdrest
            (fun y hy => (blocksOk_mem _ hok y (by simp [hy])).1) qv hq1
        have hnep : ∀ x ∈ coalSpec rest, x.1 ≠ p := by
          intro x hx
          have := hCSpos x hx
          omega
        have hORead : overwrite mem (coalSpec rest) p = mem p :=
          overwrite_read_notMem mem _ p hnep
        have hOcollapse : overwrite mem ((p, v) :: coalSpec rest) =
            overwrite mem (coalSpec rest) := by
          rw [overwrite_cons]
          rw [show v = overwrite mem (coalSpec rest) p by rw [hORead]; exact hv.symm]
          exact writeW_self _ _
        constructor
        · rw [hOcollapse]
          exact hrec.1
        · rw [hOcollapse, Decodes_cons_iff]
          refine ⟨rfl, by rw [hORead]; exact hv, hvne, hrec.2⟩

theorem heapBlocks_of_decode (h : Heap) (L : List (Int × Int))
    (hd : decode h.mem (heapFuel h) 4 = some L) : heapBlocks h = L := by
  simp [heapBlocks, hd]

/-- Complete characterization of `coalesce` on a well-formed heap:
the result is well-formed, its decoded block list is `coalSpec` of the
old one, and a second `coalesce` leaves the heap exactly unchanged. -/
theorem coalesce_full (h : Heap) (hwf : wf h = true) :
    wf (coalesce h).2 = true ∧
      heapBlocks (coalesce h).2 = coalSpec (heapBlocks h) ∧
      (coalesce (coalesce h).2).2 = (coalesce h).2 := by
  obtain ⟨L, hdec, hok, hsum, hdfix⟩ := wf_decodes h hwf
  obtain ⟨h8A, hmodA, -⟩ := wf_elim h hwf
  have hHB : heapBlocks h = L := heapBlocks_of_decode h L hdfix
  have hfuel : L.length + 1 ≤ heapFuel h := length_lt_fuel L h.allocSize hok hsum
  have hsim := coalOuter_sim L.length L h.mem 4 (heapFuel h) (le_refl _) hdec hok hfuel
  have hmem2 : (coalesce h).2.mem = overwrite h.mem (coalSpec L) := hsim.1
  have hCSok : blocksOk (coalSpec L) = true := coalSpec_blocksOk L hok
  have hCSsum : sumSizes (coalSpec L) = h.allocSize := by
    rw [coalSpec_sum]
    exact hsum
  have hdec2 : Decodes (coalesce h).2.mem 4 (coalSpec L) := by
    rw [hmem2]
    exact hsim.2
  have hwf2 : wf (coalesce h).2 = true :=
    wf_intro _ (coalSpec L) h8A hmodA hdec2 hCSok hCSsum
  have hfuel2 : heapFuel (coalesce h).2 = heapFuel h := rfl
  have hHB2 : heapBlocks (coalesce h).2 = coalSpec L := by
    obtain ⟨f, hf⟩ := hdec2
    have hdfx : decode (coalesce h).2.mem (heapFuel (coalesce h).2) 4 =
        some (coalSpec L) := by
      refine decode_mono _ _ _ 4 _ (decode_fuel_exact _ f 4 _ hf) ?_
      rw [hfuel2]
      exact length_lt_fuel _ h.allocSize hCSok hCSsum
    exact heapBlocks_of_decode _ _ hdfx
  have hfuelCS : (coalSpec L).length + 1 ≤ heapFuel h :=
    length_lt_fuel _ h.allocSize hCSok hCSsum
  have hsim2 := coalOuter_sim (coalSpec L).length (coalSpec L) (coalesce h).2.mem 4
    (heapFuel h) (le_refl _) hdec2 hCSok hfuelCS
  have hvals2 := Decodes_values _ _ _ hdec2
  have hidem : (coalesce (coalesce h).2).2 = (coalesce h).2 := by
    show ({ (coalesce h).2 with
      mem := coalOuter (coalesce h).2.mem (heapFuel (coalesce h).2) 4 }) =
      (coalesce h).2
    have hfix : coalOuter (coalesce h).2.mem (heapFuel (coalesce h).2) 4 =
        (coalesce h).2.mem := by
      rw [hfuel2, hsim2.1, coalSpec_idem]
      exact overwrite_self _ _ hvals2
    rw [hfix]
  refine ⟨hwf2, ?_, hidem⟩
  rw [hHB]
  exact hHB2

/-- Every reachable heap is well-formed. -/
theorem reach_wf (h : Heap) (hr : Reach h) : wf h = true := by
  induction hr with
  | init_ok s h hinit => exact (init_heap_wf s h hinit).1
  | alloc h n hr ih => exact balloc_wf h n ih
  | free h p hr ih => exact bfree_wf h p ih
  | coal h hr ih => exact (coalesce_full h ih).1

/-! ### Helper facts for the claims -/

theorem bfreeMem_even (m : Int → Int) (blk : Int) :
    bfreeMem m blk blk % 2 = 0 := by
  unfold bfreeMem
  simp only [readW, ite_apply, writeW_apply]
  split_ifs <;> simp only [clrA, clrP] <;> omega

/-! ### The claims -/

/-- C1: for every allocation request `n ≥ 1` on an initialized
(well-formed) heap, among all free blocks whose size is at least the
required block size, `balloc` selects the one with the smallest size;
among several of that minimum size it selects the one earliest in
address (scan) order, and the returned address is the payload of that
block (header offset + 4). -/
theorem c1_best_fit_selection (h : Heap) (n : Int) (hwf : wf h = true)
    (hn : 1 ≤ n) (hne : fits (blockSizeOf n) (heapBlocks h) ≠ []) :
    ∃ pv ∈ fits (blockSizeOf n) (heapBlocks h),
      (balloc h n).1 = some (pv.1 + hdrSize) ∧
      (∀ qv ∈ fits (blockSizeOf n) (heapBlocks h), msk pv.2 ≤ msk qv.2) ∧
      (∀ qv ∈ fits (blockSizeOf n) (heapBlocks h),
        msk qv.2 = msk pv.2 → pv.1 ≤ qv.1) := by
  obtain ⟨L, hdec, hok, hsum, hdfix⟩ := wf_decodes h hwf
  have hHB : heapBlocks h = L := heapBlocks_of_decode h L hdfix
  rw [hHB] at hne ⊢
  cases hfm : firstMin (fits (blockSizeOf n) L) with
  | none =>
    rw [firstMin_none_iff] at hfm
    exact absurd hfm hne
  | some pv =>
    have hscan : ballocScan h.mem (blockSizeOf n) (heapFuel h) 4 none = some pv.1 := by
      rw [ballocScan_firstMin h L (blockSizeOf n) hdec hok hsum, hfm]
      rfl
    have hmem := firstMin_mem _ _ hfm
    have hpw : (fits (blockSizeOf n) L).Pairwise (fun a b => a.1 < b.1) := by
      refine List.Pairwise.sublist (List.filter_sublist L) ?_
      exact Decodes_pairwise h.mem L 4 hdec
        (fun x hx => (blocksOk_mem _ hok x hx).1)
    refine ⟨pv, hmem, ?_, firstMin_le _ pv hfm, ?_⟩
    · exact balloc_some h n pv.1 (by omega) hscan
    · exact firstMin_tie_earliest _ pv hfm hpw

/-- C1 witness: on the freshly initialized heap the single free block is
selected for a request of 8 bytes and the payload offset 8 is returned. -/
theorem c1_witness :
    ∃ pv ∈ fits (blockSizeOf 8) (heapBlocks heap0),
      (balloc heap0 8).1 = some (pv.1 + hdrSize) ∧
      (∀ qv ∈ fits (blockSizeOf 8) (heapBlocks heap0), msk pv.2 ≤ msk qv.2) ∧
      (∀ qv ∈ fits (blockSizeOf 8) (heapBlocks heap0),
        msk qv.2 = msk pv.2 → pv.1 ≤ qv.1) :=
  c1_best_fit_selection heap0 8 (by decide) (by decide) (by decide)

/-- C2 (counterexample, code bug): after `init_heap(4096)` and
`balloc(50)`, the split leaves a free block of size 4032 at offset 60,
but no footer is written: the word at the end of that block (offset
4088) still holds the stale value 4088 from `init_heap`, not the block
size 4032 — the free block's footer does not equal its header size. -/
theorem c2_footer_not_written :
    heapBlocks heap2 = [(4, 59), (60, 4034)] ∧
    readW heap2.mem 60 % 2 = 0 ∧
    msk (readW heap2.mem 60) = 4032 ∧
    readW heap2.mem (60 + 4032 - 4) = 4088 ∧
    readW heap2.mem (60 + 4032 - 4) ≠ msk (readW heap2.mem 60) := by
  decide

/-- C3 (counterexample, code bug): after
`balloc(40); balloc(8); bfree(8); balloc(8)` the last call splits the
48-byte free block at offset 4 into an allocated 16-byte block and a new
free block at offset 20; the block following that new free block is the
allocated block at offset 52 (not the end mark), and the code leaves its
`prev_allocated` bit at 1 (`size_status |= 2`) although its predecessor
is free — the claim says the bit is cleared to 0. -/
theorem c3_split_sets_follower_bit :
    heapBlocks heapD = [(4, 19), (20, 34), (52, 19), (68, 4026)] ∧
    readW heapD.mem 20 % 2 = 0 ∧
    20 + msk (readW heapD.mem 20) = 52 ∧
    readW heapD.mem 52 ≠ 1 ∧
    readW heapD.mem 52 % 4 / 2 = 1 := by
  decide

/-- C4 (counterexample, code bug): after three `balloc(8)`, freeing the
first two blocks and calling `coalesce`, the blocks at offsets 4 and 20
merge into one free block of size 32 at offset 4; the block following
the merged run is the allocated block at offset 36 (not the end mark),
and `coalesce` sets its `prev_allocated` bit to 1 (`size_status |= 2`)
although its predecessor is free — the claim says the bit is cleared. -/
theorem c4_coalesce_sets_follower_bit :
    heapBlocks heapK6 = [(4, 34), (36, 19), (52, 4042)] ∧
    readW heapK6.mem 4 % 2 = 0 ∧
    4 + msk (readW heapK6.mem 4) = 36 ∧
    readW heapK6.mem 36 ≠ 1 ∧
    readW heapK6.mem 36 % 4 / 2 = 1 := by
  decide

/-- C5: after a single `coalesce` on a well-formed heap no two adjacent
blocks are both free, the heap is still well-formed, `coalesce` returns
status 0, and calling `coalesce` a second time with no intervening
allocate or free leaves the entire heap state (every memory word and the
size field) unchanged. -/
theorem c5_coalesce_idempotent (h : Heap) (hwf : wf h = true) :
    noAdjFree (heapBlocks (coalesce h).2) = true ∧
    wf (coalesce h).2 = true ∧
    (coalesce h).1 = 0 ∧
    (coalesce (coalesce h).2).2 = (coalesce h).2 := by
  obtain ⟨hwf2, hHB2, hidem⟩ := coalesce_full h hwf
  refine ⟨?_, hwf2, rfl, hidem⟩
  rw [hHB2]
  exact coalSpec_noAdjFree _

/-- C5 witness: the two adjacent 16-byte free blocks of `heapK5` are
merged, and a second `coalesce` changes nothing. -/
theorem c5_witness :
    noAdjFree (heapBlocks (coalesce heapK5).2) = true ∧
    wf (coalesce heapK5).2 = true ∧
    (coalesce heapK5).1 = 0 ∧
    (coalesce (coalesce heapK5).2).2 = (coalesce heapK5).2 :=
  c5_coalesce_idempotent heapK5 (by decide)

/-- C6: every failing `bfree` (null, misaligned, out-of-range or
already-free target) returns `-1` and performs no mutation of the heap,
and after a successful `bfree` a second `bfree` of the same pointer
fails with `-1` and leaves the region state exactly as it was. -/
theorem c6_double_free_rejected (h : Heap) (p : Int) :
    ((bfree h p).1 = -1 → (bfree h p).2 = h) ∧
    ((bfree h p).1 = 0 →
      (bfree (bfree h p).2 p).1 = -1 ∧
      (bfree (bfree h p).2 p).2 = (bfree h p).2) := by
  refine ⟨bfree_fail_frame h p, ?_⟩
  intro hs
  by_cases hc : p = 0 ∨ p % 8 ≠ 0 ∨ p < 4 + hdrSize ∨ 4 + h.allocSize ≤ p
  · rw [bfree_fail_guard h p hc] at hs
    simp at hs
  by_cases hb : readW h.mem (p - hdrSize) % 2 = 0
  · rw [bfree_fail_bit h p hc hb] at hs
    simp at hs
  rw [bfree_succ_eq h p hc hb]
  have hc2 : ¬(p = 0 ∨ p % 8 ≠ 0 ∨
      p < 4 + hdrSize ∨
      4 + ({ h with mem := bfreeMem h.mem (p - hdrSize) } : Heap).allocSize ≤ p) := hc
  have hb2 : readW ({ h with mem := bfreeMem h.mem (p - hdrSize) } : Heap).mem
      (p - hdrSize) % 2 = 0 := bfreeMem_even h.mem (p - hdrSize)
  rw [bfree_fail_bit _ p hc2 hb2]
  exact ⟨rfl, rfl⟩

/-- C6 witness: freeing payload offset 8 of `heap1` succeeds once and
fails with `-1` the second time, leaving the heap unchanged. -/
theorem c6_witness :
    (bfree heap1 8).1 = 0 ∧
    (bfree (bfree heap1 8).2 8).1 = -1 ∧
    (bfree (bfree heap1 8).2 8).2 = (bfree heap1 8).2 := by
  have hs : (bfree heap1 8).1 = 0 := by decide
  have h2 := (c6_double_free_rejected heap1 8).2 hs
  exact ⟨hs, h2.1, h2.2⟩

/-- C7: for every requested payload size `n ≥ 1`, the block size used by
`balloc` is the smallest multiple of 8 that is at least
`n + hdrSize` (the header being one 4-byte word). -/
theorem c7_block_size_rounding (n : Int) (hn : 1 ≤ n) :
    blockSizeOf n % 8 = 0 ∧ n + hdrSize ≤ blockSizeOf n ∧
      ∀ m : Int, m % 8 = 0 → n + hdrSize ≤ m → blockSizeOf n ≤ m := by
  unfold blockSizeOf hdrSize
  refine ⟨by omega, by omega, ?_⟩
  intro m h1 h2
  omega

/-- C7 witness: for `n = 3` the computed block size is the smallest
multiple of 8 at least `3 + 4`, namely 8. -/
theorem c7_witness :
    blockSizeOf 3 % 8 = 0 ∧ (3 : Int) + hdrSize ≤ blockSizeOf 3 ∧
      blockSizeOf 3 ≤ 8 := by
  have hth := c7_block_size_rounding 3 (by decide)
  exact ⟨hth.1, hth.2.1, hth.2.2 8 (by decide) (by decide)⟩

/-- C8: after any sequence of successful `init_heap`, `balloc`, `bfree`
and `coalesce` operations, decoding the block sequence from
`heap_start` by repeatedly advancing by each block's masked size reaches
the end-mark word (value exactly 1) with the block sizes summing exactly
to `alloc_size` — the blocks tile the usable region with no overlap and
no gap — and the end-mark word at `heap_start + alloc_size` is never
overwritten. -/
theorem c8_blocks_tile_region (h : Heap) (hr : Reach h) :
    ∃ L, decode h.mem (heapFuel h) 4 = some L ∧
      blocksOk L = true ∧
      sumSizes L = h.allocSize ∧
      h.mem (4 + h.allocSize) = 1 := by
  have hwf := reach_wf h hr
  obtain ⟨L, hdec, hok, hsum, hdfix⟩ := wf_decodes h hwf
  refine ⟨L, hdfix, hok, hsum, ?_⟩
  have hst := Decodes_stop h.mem L 4 hdec
  rw [hsum] at hst
  exact hst

/-- C8 witness: the heap reached by `init_heap 4096; balloc 8` tiles the
region and keeps the end mark. -/
theorem c8_witness :
    ∃ L, decode heap1.mem (heapFuel heap1) 4 = some L ∧
      blocksOk L = true ∧
      sumSizes L = heap1.allocSize ∧
      heap1.mem (4 + heap1.allocSize) = 1 :=
  c8_blocks_tile_region heap1
    (Reach.alloc heap0 8 (Reach.init_ok 4096 heap0 (by rfl)))

/-- C9: `bfree` succeeds (returns 0) and mutates the heap for any
non-null, 8-byte-aligned pointer strictly inside the usable region whose
immediately preceding word has its low (allocated) bit set — even if the
pointer was never returned by `balloc`; the validation checks only
null, alignment, range and the word directly before the pointer. -/
theorem c9_interior_pointer_freed (h : Heap) (p : Int)
    (h8 : p % 8 = 0) (hlo : 4 + hdrSize ≤ p) (hhi : p < 4 + h.allocSize)
    (hbit : readW h.mem (p - hdrSize) % 2 = 1) :
    (bfree h p).1 = 0 ∧
    (bfree h p).2.mem (p - hdrSize) ≠ h.mem (p - hdrSize) := by
  have hc : ¬(p = 0 ∨ p % 8 ≠ 0 ∨ p < 4 + hdrSize ∨ 4 + h.allocSize ≤ p) := by
    unfold hdrSize at hlo ⊢
    omega
  have hb : ¬readW h.mem (p - hdrSize) % 2 = 0 := by omega
  rw [bfree_succ_eq h p hc hb]
  refine ⟨rfl, ?_⟩
  intro heq
  have heven := bfreeMem_even h.mem (p - hdrSize)
  rw [show ({ h with mem := bfreeMem h.mem (p - hdrSize) } : Heap).mem
    (p - hdrSize) = bfreeMem h.mem (p - hdrSize) (p - hdrSize) from rfl] at heq
  rw [heq] at heven
  rw [show readW h.mem (p - hdrSize) = h.mem (p - hdrSize) from rfl] at hbit
  omega

/-- C9 witness: offset 16 of `heapU` is an interior payload address of
the allocated block at offset 4 (payload 8..27), never returned by
`balloc`; the user wrote 5 into the word at offset 12, so its low bit is
set, and `bfree` accepts the pointer and mutates the heap. -/
theorem c9_witness :
    (bfree heapU 16).1 = 0 ∧
    (bfree heapU 16).2.mem (16 - hdrSize) ≠ heapU.mem (16 - hdrSize) :=
  c9_interior_pointer_freed heapU 16 (by decide) (by decide) (by decide) (by decide)

end DMA
